import Mathlib

/-!
Verification of the text-level transaction rewriting core of
`fava-fix-uncategorized` (`src/fava_fix_uncategorized/__init__.py`):

* `normalize_and_validate_posting` — the amount normalizer,
* `replace_unclassified_posting`  — the posting splicer,
* `change_narration`              — the narration rewriter.

Strings are modelled as Lean `String`s (sequences of characters).  The
Python text primitives used by the code (`str.strip`, `str.lstrip`,
`str.rstrip`, `str.splitlines`, `str.split`, `str.join`, `str.replace`,
`str.upper`, `in`) are embedded below on `List Char`/`String`.  Whitespace
is modelled as the six ASCII whitespace characters recognised both by
Python's `str.strip` and by the regex class `\s`; Unicode-only whitespace
code points are not modelled.
-/

/-- Python whitespace (`\s`, `str.strip` default), ASCII fragment:
space, tab, newline, carriage return, vertical tab, form feed. -/
def isPySpace (c : Char) : Bool :=
  c = ' ' || c = '\t' || c = '\n' || c = '\r' || c = '\x0b' || c = '\x0c'

/-- Line-boundary characters of Python's `str.splitlines`. -/
def isLineBreak (c : Char) : Bool :=
  c = '\n' || c = '\r' || c = '\x0b' || c = '\x0c' ||
  c = '\x1c' || c = '\x1d' || c = '\x1e' || c = '\x85' ||
  c = '\u2028' || c = '\u2029'

/-- Python `str.lstrip()` on a character list. -/
def pyLstripL (cs : List Char) : List Char := cs.dropWhile isPySpace

/-- Python `str.rstrip()` on a character list. -/
def pyRstripL (cs : List Char) : List Char :=
  (cs.reverse.dropWhile isPySpace).reverse

/-- Python `str.strip()` on a character list. -/
def pyStripL (cs : List Char) : List Char := pyRstripL (pyLstripL cs)

/-- Python `str.lstrip()`. -/
def pyLstrip (s : String) : String := String.mk (pyLstripL s.data)

/-- Python `str.rstrip()`. -/
def pyRstrip (s : String) : String := String.mk (pyRstripL s.data)

/-- Python `str.strip()`. -/
def pyStrip (s : String) : String := String.mk (pyStripL s.data)

/-- Python `str.splitlines()` on a character list: accumulate the current
line (reversed in `acc`) and emit it at each line boundary; a terminating
boundary does not open a new line.  `skipLF` is set right after a `'\r'`
boundary so that the `'\n'` of a `"\r\n"` pair is consumed silently,
making the pair a single boundary. -/
def splitlinesAux (skipLF : Bool) (acc : List Char) : List Char → List (List Char)
  | [] => if acc = [] then [] else [acc.reverse]
  | c :: rest =>
      if skipLF = true ∧ c = '\n' then splitlinesAux false acc rest
      else if isLineBreak c then
        acc.reverse :: splitlinesAux (c = '\r') [] rest
      else splitlinesAux false (c :: acc) rest

/-- Python `str.splitlines()`. -/
def splitlines (s : String) : List String :=
  (splitlinesAux false [] s.data).map String.mk

/-- Python `str.split(sep)` for a one-character separator, on a character
list.  Always returns at least one (possibly empty) fragment. -/
def pySplitL (sep : Char) : List Char → List (List Char)
  | [] => [[]]
  | c :: rest =>
      let r := pySplitL sep rest
      if c = sep then [] :: r
      else
        match r with
        | h :: t => (c :: h) :: t
        | [] => [[c]]

/-- Python `str.split(sep)` for a one-character separator. -/
def pySplit (sep : Char) (s : String) : List String :=
  (pySplitL sep s.data).map String.mk

/-- Python `sep.join(parts)`. -/
def pyJoin (sep : String) : List String → String
  | [] => ""
  | [l] => l
  | l :: ls => l ++ sep ++ pyJoin sep ls

/-- Python `"\n".join(lines)`. -/
def joinNL (ls : List String) : String := pyJoin "\n" ls

/-- Python `str.startswith(pre)`. -/
def pyStartsWith (s pre : String) : Bool := pre.data.isPrefixOf s.data

/-- A posting as handed to the splicer: a dict with keys
`account` and `amount`. -/
structure Posting where
  account : String
  amount : String
deriving DecidableEq, Repr

/-! ### The amount regex

The source compiles (in verbose mode)

    (?P<number>\-?\s*\d+(?:[.,]\d+)*(?:[.]\d{2})?|\d+)\s*(?P<currency>[A-Za-z]{3})?$

and matches it at the start of the trimmed amount (`re.match`, with `$`
forcing the match to reach the end).  The functions below compute the
leftmost-greedy match of this pattern.  The quantifiers `\d+`, `\s*` and
`(?:[.,]\d+)*` are realised as maximal munch: shortening any of them
leaves a digit, a whitespace character or a `[.,]`-digit pair at a point
where the remainder of the pattern — which can never begin with one —
must match, so Python's backtracking engine produces the same match. -/

/-- Greedy match of `\d*(?:[.,]\d+)*` (the digit/group tail of the
`number` alternative), returning the consumed and remaining characters. -/
def dtg : List Char → List Char × List Char
  | [] => ([], [])
  | c :: rest =>
      if c.isDigit then
        (c :: (dtg rest).1, (dtg rest).2)
      else
        match rest with
        | d :: rest' =>
            if (c = '.' || c = ',') && d.isDigit then
              (c :: d :: (dtg rest').1, (dtg rest').2)
            else ([], c :: rest)
        | [] => ([], c :: rest)

/-- Greedy match of the pattern tail `\s*(?P<currency>[A-Za-z]{3})?$`:
returns the currency group (if any) when the tail matches to the end. -/
def matchTail (cs : List Char) : Option (Option (List Char)) :=
  match cs.dropWhile isPySpace with
  | [] => some none
  | [a, b, c] =>
      if a.isAlpha && b.isAlpha && c.isAlpha then some (some [a, b, c])
      else none
  | _ => none

/-- Greedy match of the first `number` alternative
`\-?\s*\d+(?:[.,]\d+)*`: returns the group and the remainder. -/
def matchNumber1 (cs : List Char) : Option (List Char × List Char) :=
  let minus : List Char := if cs.head? = some '-' then ['-'] else []
  let cs1 := if cs.head? = some '-' then cs.tail else cs
  let sp := cs1.takeWhile isPySpace
  let cs2 := cs1.dropWhile isPySpace
  match cs2.head? with
  | some c =>
      if c.isDigit then some (minus ++ sp ++ (dtg cs2).1, (dtg cs2).2)
      else none
  | none => none

/-- The second `number` alternative `\d+` followed by the pattern tail. -/
def matchAmount2 (cs : List Char) : Option (List Char × Option (List Char)) :=
  match cs.head? with
  | some c =>
      if c.isDigit then
        match matchTail (cs.dropWhile Char.isDigit) with
        | some cur => some (cs.takeWhile Char.isDigit, cur)
        | none => none
      else none
  | none => none

/-- Match of the whole amount pattern: number group and optional currency
group.  After the first alternative's digits/groups we try the optional
fraction `(?:[.]\d{2})?` greedily, then the tail; on failure the second
alternative is tried. -/
def matchAmount (cs : List Char) : Option (List Char × Option (List Char)) :=
  match matchNumber1 cs with
  | some (num, rest) =>
      match rest with
      | '.' :: a :: b :: rest' =>
          if a.isDigit && b.isDigit then
            match matchTail rest' with
            | some cur => some (num ++ ['.', a, b], cur)
            | none =>
                match matchTail rest with
                | some cur => some (num, cur)
                | none => matchAmount2 cs
          else
            match matchTail rest with
            | some cur => some (num, cur)
            | none => matchAmount2 cs
      | _ =>
          match matchTail rest with
          | some cur => some (num, cur)
          | none => matchAmount2 cs
  | none => matchAmount2 cs

/-- Keep a character unless it is a comma or a space (the characters
removed by `.replace(",", "").replace(" ", "")`). -/
def ncPred (c : Char) : Bool := !(c = ',') && !(c = ' ')

/-- The matched number with commas and spaces removed
(`match.group("number").replace(",", "").replace(" ", "")`). -/
def cleanNum (num : List Char) : String :=
  String.mk (num.filter ncPred)

/-- The currency group uppercased, or the `"CHF"` default when absent. -/
def curStr : Option (List Char) → String
  | some c => String.mk (c.map Char.toUpper)
  | none => "CHF"

/-- `normalize_and_validate_posting` (lines 40–80 of the source):
trim the amount; an empty amount short-circuits to `""`; otherwise the
amount must match the regex, the number is kept with commas and spaces
removed, and the currency is uppercased, defaulting to `"CHF"`.
`ValueError` is modelled as `Except.error` carrying the message. -/
def normalize_and_validate_posting (posting : Posting) : Except String Posting :=
  let amount := pyStrip posting.amount
  if amount ≠ "" then
    match matchAmount amount.data with
    | none => Except.error ("Invalid amount format: " ++ amount)
    | some (num, cur) =>
        Except.ok { posting with amount := cleanNum num ++ " " ++ curStr cur }
  else
    Except.ok { posting with amount := "" }

/-- The keep-condition of the splicer's partitioning loop: the
left-stripped line starts with neither `Expenses:` nor `Income:`. -/
def keepLine (line : String) : Bool :=
  !(pyStartsWith (pyLstrip line) "Expenses:") && !(pyStartsWith (pyLstrip line) "Income:")

/-- The loop of `replace_unclassified_posting` over the block's lines:
collect the kept lines (those satisfying `keepLine`) and the minimum
nonzero indentation.  (The loop's running minimum is accumulated here by
recursion on the lines; the resulting minimum is the same.) -/
def replaceScan : List String → List String × Option Nat
  | [] => ([], none)
  | line :: ls =>
      let stripped := pyLstrip line
      let indent_len := line.length - stripped.length
      let mi' :=
        if indent_len ≠ 0 then
          some (match (replaceScan ls).2 with
                | none => indent_len
                | some m => if indent_len < m then indent_len else m)
        else (replaceScan ls).2
      if keepLine line then (line :: (replaceScan ls).1, mi')
      else ((replaceScan ls).1, mi')

/-- `replace_unclassified_posting` (lines 83–123 of the source). -/
def replace_unclassified_posting (entry_str : String) (new_postings : List Posting) : String :=
  let lines := splitlines entry_str
  let kept_lines := (replaceScan lines).1
  let min_indent := (replaceScan lines).2
  let indent := String.mk (List.replicate (min_indent.getD 2) ' ')
  let validated_postings :=
    new_postings.filterMap fun p => (normalize_and_validate_posting p).toOption
  let new_posting_lines :=
    validated_postings.map fun p => indent ++ p.account ++ " " ++ p.amount
  let all_new :=
    if new_posting_lines.length = 0 then
      new_posting_lines ++ [indent ++ "Expenses:Family:Unclassified"]
    else
      new_posting_lines ++ [indent ++ "Expenses:Family:Unclassified 0 CHF"]
  joinNL (kept_lines ++ all_new)

/-- The rewriter first strips all double quotes from the supplied
narration (lines 146–147 of the source; an empty narration is left as
is, which `replace` would also do). -/
def stripN (new_narration : String) : String :=
  if new_narration ≠ "" then String.mk (new_narration.data.filter (· ≠ '"'))
  else new_narration

/-- `change_narration` (lines 126–170 of the source). -/
def change_narration (entry_str : String) (new_narration : String) : String :=
  match splitlines entry_str with
  | [] => entry_str
  | first_line :: rest =>
      if !(first_line.data.contains '*') then entry_str
      else
        let n := stripN new_narration
        let parts := pySplit '"' first_line
        if parts.length % 2 = 0 then entry_str
        else if 4 ≤ parts.length then
          if n = "" then
            joinNL (pyRstrip (pyJoin "\"" (parts.take 3)) :: rest)
          else
            joinNL (pyJoin "\"" (parts.set 3 n) :: rest)
        else if 3 ≤ parts.length then
          if n ≠ "" then
            joinNL ((pyJoin "\"" (parts.take 3) ++ " \"" ++ n ++ "\"") :: rest)
          else joinNL (first_line :: rest)
        else joinNL (first_line :: rest)

/-! ### Specification-side amount grammar

The grammar of the claim text: an optional leading minus with optional
internal whitespace, digits with comma/dot groups and an optional trailing
2-digit dot fraction, optional whitespace, and an optional 3-letter
alphabetic currency, matching the whole string. -/

/-- `(?:[.,]\d+)*`: a sequence of separator-led digit groups. -/
inductive IsGroups : List Char → Prop
  | nil : IsGroups []
  | cons (sep d : Char) (ds rest : List Char) :
      (sep = '.' ∨ sep = ',') → d.isDigit = true → (∀ c ∈ ds, c.isDigit = true) →
      IsGroups rest → IsGroups (sep :: d :: (ds ++ rest))

/-- The `number` group of the claimed grammar. -/
def SpecNumber (n : List Char) : Prop :=
  ∃ m w ds gs f, n = m ++ w ++ ds ++ gs ++ f ∧
    (m = [] ∨ m = ['-']) ∧ (∀ c ∈ w, isPySpace c = true) ∧
    ds ≠ [] ∧ (∀ c ∈ ds, c.isDigit = true) ∧ IsGroups gs ∧
    (f = [] ∨ ∃ a b, f = ['.', a, b] ∧ a.isDigit = true ∧ b.isDigit = true)

/-- `s` matches the claimed grammar end-to-end with number group `num`
and currency group `cur`. -/
def SpecMatch (s num : List Char) (cur : Option (List Char)) : Prop :=
  ∃ w2 c, s = num ++ w2 ++ c ∧ SpecNumber num ∧ (∀ ch ∈ w2, isPySpace ch = true) ∧
    ((c = [] ∧ cur = none) ∨
     (∃ a b c3, c = [a, b, c3] ∧ a.isAlpha = true ∧ b.isAlpha = true ∧
       c3.isAlpha = true ∧ cur = some c))

/-! ### Character-class facts -/

theorem ne_char_of_bool {f : Char → Bool} {c d : Char}
    (h : f c = true) (hd : f d = false) : c ≠ d := by
  intro he
  rw [he, hd] at h
  exact Bool.noConfusion h

theorem isPySpace_elim {c : Char} (h : isPySpace c = true) :
    c = ' ' ∨ c = '\t' ∨ c = '\n' ∨ c = '\r' ∨ c = '\x0b' ∨ c = '\x0c' := by
  have h' := h
  simp only [isPySpace, Bool.or_eq_true, decide_eq_true_eq] at h'
  tauto

theorem isDigit_of_isPySpace {c : Char} (h : isPySpace c = true) : c.isDigit = false := by
  rcases isPySpace_elim h with rfl | rfl | rfl | rfl | rfl | rfl <;> decide

theorem isAlpha_of_isPySpace {c : Char} (h : isPySpace c = true) : c.isAlpha = false := by
  rcases isPySpace_elim h with rfl | rfl | rfl | rfl | rfl | rfl <;> decide

theorem isPySpace_ne_dot {c : Char} (h : isPySpace c = true) : c ≠ '.' := by
  rcases isPySpace_elim h with rfl | rfl | rfl | rfl | rfl | rfl <;> decide

theorem isPySpace_ne_comma {c : Char} (h : isPySpace c = true) : c ≠ ',' := by
  rcases isPySpace_elim h with rfl | rfl | rfl | rfl | rfl | rfl <;> decide

theorem isPySpace_ne_minus {c : Char} (h : isPySpace c = true) : c ≠ '-' := by
  rcases isPySpace_elim h with rfl | rfl | rfl | rfl | rfl | rfl <;> decide

theorem isDigit_isAlpha {c : Char} (h : c.isDigit = true) : c.isAlpha = false := by
  simp only [Char.isDigit, Bool.and_eq_true, decide_eq_true_eq] at h
  obtain ⟨h1, h2⟩ := h
  have h1' : (48 : Nat) ≤ c.val.toNat := h1
  have h2' : c.val.toNat ≤ (57 : Nat) := h2
  simp only [Char.isAlpha, Char.isUpper, Char.isLower, Bool.or_eq_false_iff,
    Bool.and_eq_false_iff, decide_eq_false_iff_not]
  constructor
  · left
    intro hx
    have : (65 : Nat) ≤ c.val.toNat := hx
    omega
  · left
    intro hx
    have : (97 : Nat) ≤ c.val.toNat := hx
    omega

theorem isAlpha_isDigit {c : Char} (h : c.isAlpha = true) : c.isDigit = false := by
  cases hd : c.isDigit with
  | false => rfl
  | true => rw [isDigit_isAlpha hd] at h; exact absurd h (by simp)

theorem isDigit_ne_dot {c : Char} (h : c.isDigit = true) : c ≠ '.' :=
  ne_char_of_bool h (by decide)

theorem isDigit_ne_comma {c : Char} (h : c.isDigit = true) : c ≠ ',' :=
  ne_char_of_bool h (by decide)

theorem isDigit_ne_minus {c : Char} (h : c.isDigit = true) : c ≠ '-' :=
  ne_char_of_bool h (by decide)

theorem isDigit_ne_space {c : Char} (h : c.isDigit = true) : c ≠ ' ' :=
  ne_char_of_bool h (by decide)

theorem isPySpace_of_isDigit {c : Char} (h : c.isDigit = true) : isPySpace c = false := by
  cases hs : isPySpace c with
  | false => rfl
  | true => rw [isDigit_of_isPySpace hs] at h; exact absurd h (by simp)

theorem isAlpha_ne_dot {c : Char} (h : c.isAlpha = true) : c ≠ '.' :=
  ne_char_of_bool h (by decide)

theorem isAlpha_ne_comma {c : Char} (h : c.isAlpha = true) : c ≠ ',' :=
  ne_char_of_bool h (by decide)

theorem isPySpace_of_isAlpha {c : Char} (h : c.isAlpha = true) : isPySpace c = false := by
  cases hs : isPySpace c with
  | false => rfl
  | true => rw [isAlpha_of_isPySpace hs] at h; exact absurd h (by simp)

theorem isAlpha_toUpper {c : Char} (h : c.isAlpha = true) : (Char.toUpper c).isAlpha = true := by
  have hdef : Char.toUpper c =
      if c.toNat ≥ 97 ∧ c.toNat ≤ 122 then Char.ofNat (c.toNat - 32) else c := rfl
  rw [hdef]
  by_cases hc : c.toNat ≥ 97 ∧ c.toNat ≤ 122
  · rw [if_pos hc]
    obtain ⟨h1, h2⟩ := hc
    generalize hn : c.toNat = n at h1 h2
    interval_cases n <;> decide
  · rw [if_neg hc]
    exact h

theorem toUpper_toUpper (c : Char) : Char.toUpper (Char.toUpper c) = Char.toUpper c := by
  have hdef : Char.toUpper c =
      if c.toNat ≥ 97 ∧ c.toNat ≤ 122 then Char.ofNat (c.toNat - 32) else c := rfl
  by_cases hc : c.toNat ≥ 97 ∧ c.toNat ≤ 122
  · rw [hdef, if_pos hc]
    obtain ⟨h1, h2⟩ := hc
    generalize hn : c.toNat = n at h1 h2
    interval_cases n <;> decide
  · conv_lhs => rw [hdef, if_neg hc]

/-! ### takeWhile / dropWhile helpers -/

theorem takeWhile_all {p : Char → Bool} {w : List Char} (hw : ∀ c ∈ w, p c = true) :
    w.takeWhile p = w := by
  induction w with
  | nil => rfl
  | cons x xs ih =>
      rw [List.takeWhile_cons_of_pos (hw x (by simp))]
      rw [ih (fun c hc => hw c (by simp [hc]))]

theorem dropWhile_all {p : Char → Bool} {w : List Char} (hw : ∀ c ∈ w, p c = true) :
    w.dropWhile p = [] :=
  List.dropWhile_eq_nil_iff.mpr hw

theorem takeWhile_append_cons {p : Char → Bool} {w : List Char} {d : Char} {r : List Char}
    (hw : ∀ c ∈ w, p c = true) (hd : p d = false) :
    (w ++ d :: r).takeWhile p = w := by
  induction w with
  | nil =>
      simp only [List.nil_append]
      exact List.takeWhile_cons_of_neg (by simp [hd])
  | cons x xs ih =>
      rw [List.cons_append, List.takeWhile_cons_of_pos (hw x (by simp))]
      rw [ih (fun c hc => hw c (by simp [hc]))]

theorem dropWhile_append_cons {p : Char → Bool} {w : List Char} {d : Char} {r : List Char}
    (hw : ∀ c ∈ w, p c = true) (hd : p d = false) :
    (w ++ d :: r).dropWhile p = d :: r := by
  induction w with
  | nil =>
      simp only [List.nil_append]
      exact List.dropWhile_cons_of_neg (by simp [hd])
  | cons x xs ih =>
      rw [List.cons_append, List.dropWhile_cons_of_pos (hw x (by simp))]
      exact ih (fun c hc => hw c (by simp [hc]))

/-! ### Lemmas about the digit/group scanner -/

/-- The remainder head can extend neither `\d+` nor `(?:[.,]\d+)*`. -/
def dtgStops : List Char → Bool
  | [] => true
  | [c] => !c.isDigit
  | c :: d :: _ => !c.isDigit && (!(c = '.' || c = ',') || !d.isDigit)

theorem dtg_cons_digit {c : Char} {tl : List Char} (h : c.isDigit = true) :
    dtg (c :: tl) = (c :: (dtg tl).1, (dtg tl).2) := by
  rw [dtg.eq_def]
  simp [h]

theorem dtg_cons_group {c d : Char} {tl : List Char} (hc : c.isDigit = false)
    (hsep : c = '.' ∨ c = ',') (hd : d.isDigit = true) :
    dtg (c :: d :: tl) = (c :: d :: (dtg tl).1, (dtg tl).2) := by
  rw [dtg.eq_def]
  have hsep' : (c = '.' || c = ',') = true := by rcases hsep with rfl | rfl <;> simp
  simp [hc, hsep', hd]

theorem dtg_stops : ∀ {r : List Char}, dtgStops r = true → dtg r = ([], r)
  | [], _ => rfl
  | [c], h => by
      simp only [dtgStops, Bool.not_eq_true'] at h
      rw [dtg.eq_def]
      simp [h]
  | c :: d :: rest, h => by
      simp only [dtgStops, Bool.and_eq_true, Bool.not_eq_true', Bool.or_eq_true] at h
      obtain ⟨h1, h2⟩ := h
      have hcond : ((c = '.' || c = ',') && d.isDigit) = false := by
        rcases h2 with h2 | h2 <;> simp_all
      rw [dtg.eq_def]
      simp [h1, hcond]

theorem dtg_append : ∀ (cs : List Char), (dtg cs).1 ++ (dtg cs).2 = cs := by
  intro cs
  induction cs using dtg.induct with
  | case1 => rfl
  | case2 c rest h ih =>
      rw [dtg_cons_digit h]
      simpa using ih
  | case3 c h d rest' hcond ih =>
      have hc : c.isDigit = false := by simpa using h
      have hsep : c = '.' ∨ c = ',' := by
        simp only [Bool.and_eq_true, Bool.or_eq_true, decide_eq_true_eq] at hcond
        exact hcond.1
      have hd : d.isDigit = true := by
        simp only [Bool.and_eq_true] at hcond
        exact hcond.2
      rw [dtg_cons_group hc hsep hd]
      simpa using ih
  | case4 c h d rest' hcond =>
      rw [dtg.eq_def]
      have hc : c.isDigit = false := by simpa using h
      have hcond' : ((c = '.' || c = ',') && d.isDigit) = false := by simpa using hcond
      simp [hc, hcond']
  | case5 c h =>
      have hc : c.isDigit = false := by simpa using h
      rw [dtg.eq_def]
      simp [hc]

theorem dtg_shape : ∀ (cs : List Char), ∃ ds gs, (dtg cs).1 = ds ++ gs ∧
    (∀ c ∈ ds, c.isDigit = true) ∧ IsGroups gs := by
  intro cs
  induction cs using dtg.induct with
  | case1 => exact ⟨[], [], rfl, by simp, IsGroups.nil⟩
  | case2 c rest h ih =>
      obtain ⟨ds, gs, heq, hds, hgs⟩ := ih
      rw [dtg_cons_digit h]
      refine ⟨c :: ds, gs, by simp [heq], ?_, hgs⟩
      intro x hx
      rcases hx with _ | hx
      · exact h
      · exact hds x (by assumption)
  | case3 c h d rest' hcond ih =>
      obtain ⟨ds, gs, heq, hds, hgs⟩ := ih
      have hc : c.isDigit = false := by simpa using h
      have hsep : c = '.' ∨ c = ',' := by
        simp only [Bool.and_eq_true, Bool.or_eq_true, decide_eq_true_eq] at hcond
        exact hcond.1
      have hd : d.isDigit = true := by
        simp only [Bool.and_eq_true] at hcond
        exact hcond.2
      rw [dtg_cons_group hc hsep hd]
      refine ⟨[], c :: d :: (ds ++ gs), by simp [heq], by simp, ?_⟩
      exact IsGroups.cons c d ds gs hsep hd hds hgs
  | case4 c h d rest' hcond =>
      rw [dtg.eq_def]
      have hc : c.isDigit = false := by simpa using h
      have hcond' : ((c = '.' || c = ',') && d.isDigit) = false := by simpa using hcond
      refine ⟨[], [], ?_, by simp, IsGroups.nil⟩
      simp [hc, hcond']
  | case5 c h =>
      have hc : c.isDigit = false := by simpa using h
      refine ⟨[], [], ?_, by simp, IsGroups.nil⟩
      rw [dtg.eq_def]
      simp [hc]

theorem dtg_digits {ds : List Char} (rest : List Char) (hds : ∀ c ∈ ds, c.isDigit = true) :
    dtg (ds ++ rest) = (ds ++ (dtg rest).1, (dtg rest).2) := by
  induction ds with
  | nil => simp
  | cons x xs ih =>
      rw [List.cons_append, dtg_cons_digit (hds x (by simp))]
      rw [ih (fun c hc => hds c (by simp [hc]))]
      simp

theorem dtg_groups {gs r : List Char} (hgs : IsGroups gs) (hr : dtgStops r = true) :
    dtg (gs ++ r) = (gs, r) := by
  induction hgs with
  | nil => simpa using dtg_stops hr
  | cons sep d ds rest hsep hd hds hrest ih =>
      have hsepd : sep.isDigit = false := by rcases hsep with rfl | rfl <;> decide
      have : (sep :: d :: (ds ++ rest)) ++ r = sep :: d :: (ds ++ (rest ++ r)) := by simp
      rw [this, dtg_cons_group hsepd hsep hd, dtg_digits (rest ++ r) hds, ih]

theorem dtg_complete {ds gs r : List Char} (hds : ∀ c ∈ ds, c.isDigit = true)
    (hgs : IsGroups gs) (hr : dtgStops r = true) :
    dtg (ds ++ gs ++ r) = (ds ++ gs, r) := by
  rw [List.append_assoc, dtg_digits (gs ++ r) hds, dtg_groups hgs hr]

theorem IsGroups.append {a b : List Char} (ha : IsGroups a) (hb : IsGroups b) :
    IsGroups (a ++ b) := by
  induction ha with
  | nil => simpa using hb
  | cons sep d ds rest hsep hd hds hrest ih =>
      have : (sep :: d :: (ds ++ rest)) ++ b = sep :: d :: (ds ++ (rest ++ b)) := by simp
      rw [this]
      exact IsGroups.cons sep d ds (rest ++ b) hsep hd hds ih

/-! ### Soundness and completeness of the pattern-tail matcher -/

theorem matchTail_complete {w2 c : List Char} {cur : Option (List Char)}
    (hw : ∀ ch ∈ w2, isPySpace ch = true)
    (hc : (c = [] ∧ cur = none) ∨
      (∃ a b c3, c = [a, b, c3] ∧ a.isAlpha = true ∧ b.isAlpha = true ∧
        c3.isAlpha = true ∧ cur = some c)) :
    matchTail (w2 ++ c) = some cur := by
  unfold matchTail
  rcases hc with ⟨rfl, rfl⟩ | ⟨a, b, c3, rfl, ha, hb, hc3, rfl⟩
  · rw [List.append_nil, dropWhile_all hw]
  · rw [dropWhile_append_cons hw (isPySpace_of_isAlpha ha)]
    simp [ha, hb, hc3]

theorem matchTail_sound {cs : List Char} {cur : Option (List Char)}
    (h : matchTail cs = some cur) :
    ∃ w2 c, cs = w2 ++ c ∧ (∀ ch ∈ w2, isPySpace ch = true) ∧
      ((c = [] ∧ cur = none) ∨
       (∃ a b c3, c = [a, b, c3] ∧ a.isAlpha = true ∧ b.isAlpha = true ∧
         c3.isAlpha = true ∧ cur = some c)) := by
  have hsplit : cs = cs.takeWhile isPySpace ++ cs.dropWhile isPySpace :=
    (List.takeWhile_append_dropWhile isPySpace cs).symm
  have hmem : ∀ ch ∈ cs.takeWhile isPySpace, isPySpace ch = true :=
    fun ch hch => List.mem_takeWhile_imp hch
  unfold matchTail at h
  split at h
  · next hdrop =>
      refine ⟨cs.takeWhile isPySpace, [], ?_, hmem, Or.inl ⟨rfl, ?_⟩⟩
      · rw [List.append_nil]
        conv_lhs => rw [hsplit]
        rw [hdrop, List.append_nil]
      · injection h with h'
        exact h'.symm
  · next a b c3 hdrop =>
      split at h
      · next halpha =>
          simp only [Bool.and_eq_true] at halpha
          obtain ⟨⟨ha, hb⟩, hc3⟩ := halpha
          injection h with h'
          refine ⟨cs.takeWhile isPySpace, [a, b, c3], ?_, hmem,
            Or.inr ⟨a, b, c3, rfl, ha, hb, hc3, h'.symm⟩⟩
          conv_lhs => rw [hsplit]
          rw [hdrop]
      · exact absurd h (by simp)
  · exact absurd h (by simp)

/-! ### Soundness and completeness of the number matcher -/

theorem matchNumber1_complete {m w ds gs r : List Char}
    (hm : m = [] ∨ m = ['-']) (hw : ∀ c ∈ w, isPySpace c = true)
    (hne : ds ≠ []) (hds : ∀ c ∈ ds, c.isDigit = true)
    (hgs : IsGroups gs) (hr : dtgStops r = true) :
    matchNumber1 (m ++ w ++ ds ++ gs ++ r) = some (m ++ w ++ ds ++ gs, r) := by
  obtain ⟨d0, ds0, rfl⟩ : ∃ d0 ds0, ds = d0 :: ds0 := by
    cases ds with
    | nil => exact absurd rfl hne
    | cons a t => exact ⟨a, t, rfl⟩
  have hd0 : d0.isDigit = true := hds d0 (by simp)
  have htake : (w ++ (d0 :: (ds0 ++ (gs ++ r)))).takeWhile isPySpace = w :=
    takeWhile_append_cons hw (isPySpace_of_isDigit hd0)
  have hdrop : (w ++ (d0 :: (ds0 ++ (gs ++ r)))).dropWhile isPySpace =
      d0 :: (ds0 ++ (gs ++ r)) :=
    dropWhile_append_cons hw (isPySpace_of_isDigit hd0)
  have hdtg : dtg (d0 :: (ds0 ++ (gs ++ r))) = ((d0 :: ds0) ++ gs, r) := by
    have := @dtg_complete (d0 :: ds0) gs r hds hgs hr
    simpa [List.append_assoc] using this
  rcases hm with rfl | rfl
  · have hhead : (([] ++ w ++ (d0 :: ds0) ++ gs ++ r)).head? ≠ some '-' := by
      cases w with
      | nil =>
          simp only [List.nil_append, List.cons_append, List.head?_cons]
          intro hx
          exact absurd (Option.some.inj hx) (isDigit_ne_minus hd0)
      | cons x xs =>
          simp only [List.nil_append, List.cons_append, List.head?_cons]
          intro hx
          exact absurd (Option.some.inj hx) (isPySpace_ne_minus (hw x (by simp)))
    simp only [matchNumber1, if_neg hhead]
    have hshape : [] ++ w ++ (d0 :: ds0) ++ gs ++ r = w ++ (d0 :: (ds0 ++ (gs ++ r))) := by
      simp [List.append_assoc]
    rw [hshape, htake, hdrop, hdtg]
    simp [hd0, List.append_assoc]
  · have hshape : ['-'] ++ w ++ (d0 :: ds0) ++ gs ++ r =
        '-' :: (w ++ (d0 :: (ds0 ++ (gs ++ r)))) := by
      simp [List.append_assoc]
    rw [hshape]
    have hhead : ('-' :: (w ++ (d0 :: (ds0 ++ (gs ++ r))))).head? = some '-' := rfl
    simp only [matchNumber1, if_pos hhead, List.tail_cons]
    rw [htake, hdrop, hdtg]
    simp [hd0, List.append_assoc]

theorem matchNumber1_sound {cs num r : List Char} (h : matchNumber1 cs = some (num, r)) :
    ∃ m w ds gs, num = m ++ w ++ ds ++ gs ∧ (m = [] ∨ m = ['-']) ∧
      (∀ c ∈ w, isPySpace c = true) ∧ ds ≠ [] ∧ (∀ c ∈ ds, c.isDigit = true) ∧
      IsGroups gs ∧ cs = num ++ r := by
  by_cases hminus : cs.head? = some '-'
  all_goals
    simp only [matchNumber1, hminus, if_pos, if_neg, if_true, if_false, reduceIte] at h
  · -- leading minus taken
    obtain ⟨t, rfl⟩ : ∃ t, cs = '-' :: t := by
      cases cs with
      | nil => exact absurd hminus (by simp)
      | cons a t => exact ⟨t, by rw [Option.some.inj hminus]⟩
    simp only [List.tail_cons] at h
    generalize hg : t.dropWhile isPySpace = cs2 at h
    cases hh : cs2.head? with
    | none => rw [hh] at h; exact absurd h (by simp)
    | some c =>
        simp only [hh] at h
        by_cases hd : c.isDigit = true
        · rw [if_pos hd] at h
          obtain ⟨c2t, rfl⟩ : ∃ c2t, cs2 = c :: c2t := by
            cases hcc : cs2 with
            | nil => rw [hcc] at hh; exact absurd hh (by simp)
            | cons a t2 =>
                rw [hcc] at hh
                exact ⟨t2, by rw [Option.some.inj hh]⟩
          obtain ⟨ds0, gs0, hsh, hds0, hgs0⟩ := dtg_shape (c :: c2t)
          have hnum : num = ['-'] ++ t.takeWhile isPySpace ++ ds0 ++ gs0 := by
            have := (Prod.mk.inj (Option.some.inj h)).1
            rw [← this, hsh]
            simp [List.append_assoc]
          have hr' : r = (dtg (c :: c2t)).2 :=
            ((Prod.mk.inj (Option.some.inj h)).2).symm
          have hds0ne : ds0 ≠ [] := by
            intro hnil
            rw [hnil, List.nil_append] at hsh
            rw [dtg_cons_digit hd] at hsh
            cases hgs0 with
            | nil => exact absurd hsh.symm (by simp)
            | cons sep d dsx restx hsep hdx hdsx hrestx =>
                have : sep = c := by
                  have := hsh.symm
                  injection this with h1 _
                rcases hsep with h2 | h2 <;> rw [h2] at this <;>
                  exact absurd hd (by rw [← this]; decide)
          refine ⟨['-'], t.takeWhile isPySpace, ds0, gs0, hnum, Or.inr rfl,
            fun x hx => List.mem_takeWhile_imp hx, hds0ne, hds0, hgs0, ?_⟩
          rw [hnum]
          have hsplit : t = t.takeWhile isPySpace ++ (c :: c2t) := by
            conv_lhs => rw [← List.takeWhile_append_dropWhile isPySpace t]
            rw [hg]
          have hc2 : c :: c2t = (ds0 ++ gs0) ++ r := by
            rw [hr', ← hsh]
            exact (dtg_append (c :: c2t)).symm
          calc '-' :: t = '-' :: (t.takeWhile isPySpace ++ (c :: c2t)) := by rw [← hsplit]
            _ = '-' :: (t.takeWhile isPySpace ++ ((ds0 ++ gs0) ++ r)) := by rw [hc2]
            _ = ['-'] ++ t.takeWhile isPySpace ++ ds0 ++ gs0 ++ r := by
                simp [List.append_assoc]
        · rw [if_neg hd] at h
          exact absurd h (by simp)
  · -- no leading minus
    generalize hg : cs.dropWhile isPySpace = cs2 at h
    cases hh : cs2.head? with
    | none => rw [hh] at h; exact absurd h (by simp)
    | some c =>
        simp only [hh] at h
        by_cases hd : c.isDigit = true
        · rw [if_pos hd] at h
          obtain ⟨c2t, rfl⟩ : ∃ c2t, cs2 = c :: c2t := by
            cases hcc : cs2 with
            | nil => rw [hcc] at hh; exact absurd hh (by simp)
            | cons a t2 =>
                rw [hcc] at hh
                exact ⟨t2, by rw [Option.some.inj hh]⟩
          obtain ⟨ds0, gs0, hsh, hds0, hgs0⟩ := dtg_shape (c :: c2t)
          have hnum : num = [] ++ cs.takeWhile isPySpace ++ ds0 ++ gs0 := by
            have := (Prod.mk.inj (Option.some.inj h)).1
            rw [← this, hsh]
            simp [List.append_assoc]
          have hr' : r = (dtg (c :: c2t)).2 :=
            ((Prod.mk.inj (Option.some.inj h)).2).symm
          have hds0ne : ds0 ≠ [] := by
            intro hnil
            rw [hnil, List.nil_append] at hsh
            rw [dtg_cons_digit hd] at hsh
            cases hgs0 with
            | nil => exact absurd hsh.symm (by simp)
            | cons sep d dsx restx hsep hdx hdsx hrestx =>
                have : sep = c := by
                  have := hsh.symm
                  injection this with h1 _
                rcases hsep with h2 | h2 <;> rw [h2] at this <;>
                  exact absurd hd (by rw [← this]; decide)
          refine ⟨[], cs.takeWhile isPySpace, ds0, gs0, hnum, Or.inl rfl,
            fun x hx => List.mem_takeWhile_imp hx, hds0ne, hds0, hgs0, ?_⟩
          rw [hnum]
          have hsplit : cs = cs.takeWhile isPySpace ++ (c :: c2t) := by
            conv_lhs => rw [← List.takeWhile_append_dropWhile isPySpace cs]
            rw [hg]
          have hc2 : c :: c2t = (ds0 ++ gs0) ++ r := by
            rw [hr', ← hsh]
            exact (dtg_append (c :: c2t)).symm
          calc cs = cs.takeWhile isPySpace ++ (c :: c2t) := hsplit
            _ = cs.takeWhile isPySpace ++ ((ds0 ++ gs0) ++ r) := by rw [hc2]
            _ = [] ++ cs.takeWhile isPySpace ++ ds0 ++ gs0 ++ r := by
                simp [List.append_assoc]
        · rw [if_neg hd] at h
          exact absurd h (by simp)

/-! ### Soundness and completeness of the whole amount matcher -/

theorem matchAmount_complete {s num : List Char} {cur : Option (List Char)}
    (h : SpecMatch s num cur) : matchAmount s = some (num, cur) := by
  obtain ⟨w2, c, rfl, hnum, hw2, hc⟩ := h
  obtain ⟨m, w, ds, gs, f, rfl, hm, hw, hdsne, hds, hgs, hf⟩ := hnum
  have hgs' : IsGroups (gs ++ f) := by
    rcases hf with rfl | ⟨a, b, rfl, ha, hb⟩
    · simpa using hgs
    · refine hgs.append ?_
      have : ('.' : Char) :: a :: ([b] ++ []) = ['.', a, b] := by simp
      rw [← this]
      exact IsGroups.cons '.' a [b] [] (Or.inl rfl) ha
        (by intro x hx; simp at hx; rw [hx]; exact hb) IsGroups.nil
  have hr : dtgStops (w2 ++ c) = true := by
    cases w2 with
    | cons x xs =>
        have hx := hw2 x (by simp)
        have hxd := isDigit_of_isPySpace hx
        have hxdot := isPySpace_ne_dot hx
        have hxcom := isPySpace_ne_comma hx
        rw [List.cons_append]
        cases hxc : xs ++ c with
        | nil => simp [dtgStops, hxd]
        | cons d tl => simp [dtgStops, hxd, hxdot, hxcom]
    | nil =>
        rcases hc with ⟨rfl, rfl⟩ | ⟨a, b, c3, rfl, ha, hb, hc3, rfl⟩
        · rfl
        · have had := isAlpha_isDigit ha
          simp [dtgStops, had, isAlpha_ne_dot ha, isAlpha_ne_comma ha]
  have hmn : matchNumber1 (m ++ w ++ ds ++ (gs ++ f) ++ (w2 ++ c)) =
      some (m ++ w ++ ds ++ (gs ++ f), w2 ++ c) :=
    matchNumber1_complete hm hw hdsne hds hgs' hr
  have hshape : m ++ w ++ ds ++ gs ++ f ++ w2 ++ c =
      m ++ w ++ ds ++ (gs ++ f) ++ (w2 ++ c) := by simp [List.append_assoc]
  unfold matchAmount
  rw [hshape]
  simp only [hmn]
  split
  · next a b rest' heq =>
      exfalso
      cases w2 with
      | cons x xs =>
          have hx := hw2 x (by simp)
          have : x = '.' := by
            have := heq
            rw [List.cons_append] at this
            exact (List.cons.inj this).1
          exact absurd this (isPySpace_ne_dot hx)
      | nil =>
          rcases hc with ⟨rfl, rfl⟩ | ⟨a2, b2, c32, rfl, ha2, hb2, hc32, rfl⟩
          · exact absurd heq (by simp)
          · have : a2 = '.' := by
              have := heq
              rw [List.nil_append] at this
              exact (List.cons.inj this).1
            exact absurd this (isAlpha_ne_dot ha2)
  · rw [matchTail_complete hw2 hc]
    simp [List.append_assoc]

theorem matchAmount2_sound {cs num : List Char} {cur : Option (List Char)}
    (h : matchAmount2 cs = some (num, cur)) : SpecMatch cs num cur := by
  unfold matchAmount2 at h
  cases hh : cs.head? with
  | none => rw [hh] at h; exact absurd h (by simp)
  | some c =>
      simp only [hh] at h
      by_cases hd : c.isDigit = true
      · rw [if_pos hd] at h
        cases hmt : matchTail (cs.dropWhile Char.isDigit) with
        | none => rw [hmt] at h; exact absurd h (by simp)
        | some cur2 =>
            simp only [hmt] at h
            have hinj := Option.some.inj h
            have hnum : cs.takeWhile Char.isDigit = num := (Prod.mk.inj hinj).1
            have hcur : cur2 = cur := (Prod.mk.inj hinj).2
            obtain ⟨t, rfl⟩ : ∃ t, cs = c :: t := by
              cases hcc : cs with
              | nil => rw [hcc] at hh; exact absurd hh (by simp)
              | cons a t2 =>
                  rw [hcc] at hh
                  exact ⟨t2, by rw [Option.some.inj hh]⟩
            obtain ⟨w2, c0, hrest, hw2, hshape⟩ := matchTail_sound hmt
            refine ⟨w2, c0, ?_, ?_, hw2, by rw [← hcur]; exact hshape⟩
            · rw [← hnum, List.append_assoc, ← hrest, List.takeWhile_append_dropWhile]
            · refine ⟨[], [], num, [], [], by simp, Or.inl rfl, by simp, ?_, ?_,
                IsGroups.nil, Or.inl rfl⟩
              · rw [← hnum]
                simp [List.takeWhile_cons_of_pos hd]
              · intro x hx
                rw [← hnum] at hx
                exact List.mem_takeWhile_imp hx
      · rw [if_neg hd] at h
        exact absurd h (by simp)

theorem specMatch_of_parts {cs num0 rest : List Char} {cur : Option (List Char)}
    (hmn : matchNumber1 cs = some (num0, rest)) (hmt : matchTail rest = some cur) :
    SpecMatch cs num0 cur := by
  obtain ⟨m, w, ds, gs, hnum, hm, hw, hdsne, hds, hgs, hcs⟩ := matchNumber1_sound hmn
  obtain ⟨w2, c0, hrest, hw2, hshape⟩ := matchTail_sound hmt
  refine ⟨w2, c0, ?_, ⟨m, w, ds, gs, [], by simpa using hnum, hm, hw, hdsne, hds, hgs,
    Or.inl rfl⟩, hw2, hshape⟩
  rw [hcs, hrest, List.append_assoc]

theorem specMatch_of_parts_frac {cs num0 rest' : List Char} {a b : Char}
    {cur : Option (List Char)}
    (hmn : matchNumber1 cs = some (num0, '.' :: a :: b :: rest'))
    (ha : a.isDigit = true) (hb : b.isDigit = true)
    (hmt : matchTail rest' = some cur) :
    SpecMatch cs (num0 ++ ['.', a, b]) cur := by
  obtain ⟨m, w, ds, gs, hnum, hm, hw, hdsne, hds, hgs, hcs⟩ := matchNumber1_sound hmn
  obtain ⟨w2, c0, hrest, hw2, hshape⟩ := matchTail_sound hmt
  refine ⟨w2, c0, ?_, ⟨m, w, ds, gs, ['.', a, b], by rw [hnum],
    hm, hw, hdsne, hds, hgs, Or.inr ⟨a, b, rfl, ha, hb⟩⟩, hw2, hshape⟩
  rw [hcs, hrest]
  simp [List.append_assoc]

theorem matchAmount_sound {cs num : List Char} {cur : Option (List Char)}
    (h : matchAmount cs = some (num, cur)) : SpecMatch cs num cur := by
  unfold matchAmount at h
  cases hmn : matchNumber1 cs with
  | none =>
      simp only [hmn] at h
      exact matchAmount2_sound h
  | some pr =>
      obtain ⟨num0, rest⟩ := pr
      simp only [hmn] at h
      split at h
      · next a b rest' =>
          split at h
          · next hdig =>
              simp only [Bool.and_eq_true] at hdig
              cases hmt : matchTail rest' with
              | some cur2 =>
                  simp only [hmt] at h
                  have hinj := Option.some.inj h
                  rw [← (Prod.mk.inj hinj).1, ← (Prod.mk.inj hinj).2]
                  exact specMatch_of_parts_frac hmn hdig.1 hdig.2 hmt
              | none =>
                  simp only [hmt] at h
                  cases hmt2 : matchTail ('.' :: a :: b :: rest') with
                  | some cur2 =>
                      simp only [hmt2] at h
                      have hinj := Option.some.inj h
                      rw [← (Prod.mk.inj hinj).1, ← (Prod.mk.inj hinj).2]
                      exact specMatch_of_parts hmn hmt2
                  | none =>
                      simp only [hmt2] at h
                      exact matchAmount2_sound h
          · next hdig =>
              cases hmt2 : matchTail ('.' :: a :: b :: rest') with
              | some cur2 =>
                  simp only [hmt2] at h
                  have hinj := Option.some.inj h
                  rw [← (Prod.mk.inj hinj).1, ← (Prod.mk.inj hinj).2]
                  exact specMatch_of_parts hmn hmt2
              | none =>
                  simp only [hmt2] at h
                  exact matchAmount2_sound h
      · next hne =>
          cases hmt2 : matchTail rest with
          | some cur2 =>
              simp only [hmt2] at h
              have hinj := Option.some.inj h
              rw [← (Prod.mk.inj hinj).1, ← (Prod.mk.inj hinj).2]
              exact specMatch_of_parts hmn hmt2
          | none =>
              simp only [hmt2] at h
              exact matchAmount2_sound h

/-! ### The normalizer against the claimed grammar -/

theorem normalize_empty {p : Posting} (h : pyStrip p.amount = "") :
    normalize_and_validate_posting p = Except.ok { p with amount := "" } := by
  simp [normalize_and_validate_posting, h]

theorem normalize_match {p : Posting} {num : List Char} {cur : Option (List Char)}
    (hne : pyStrip p.amount ≠ "")
    (h : matchAmount (pyStrip p.amount).data = some (num, cur)) :
    normalize_and_validate_posting p =
      Except.ok { p with amount := cleanNum num ++ " " ++ curStr cur } := by
  simp only [normalize_and_validate_posting, if_pos hne, h]

theorem normalize_nomatch {p : Posting}
    (hne : pyStrip p.amount ≠ "")
    (h : matchAmount (pyStrip p.amount).data = none) :
    normalize_and_validate_posting p =
      Except.error ("Invalid amount format: " ++ pyStrip p.amount) := by
  simp only [normalize_and_validate_posting, if_pos hne, h]

theorem specMatch_ne_nil {s num : List Char} {cur : Option (List Char)}
    (h : SpecMatch s num cur) : s ≠ [] := by
  obtain ⟨w2, c, rfl, hnum, _, _⟩ := h
  obtain ⟨m, w, ds, gs, f, rfl, _, _, hdsne, _, _, _⟩ := hnum
  simp [hdsne]

/-- C2: `normalize` behaves on the trimmed amount as follows: an empty
trimmed amount yields the empty amount; a trimmed amount matching the
claimed grammar end-to-end yields the matched number stripped of commas
and spaces, a space, and the uppercased currency (default `CHF`); any
other non-empty amount raises `InvalidAmountFormat`.  In particular
`"1,234.56 USD" ↦ "1234.56 USD"`, `"100.00 usd" ↦ "100.00 USD"`,
`"123.45" ↦ "123.45 CHF"`, `"" ↦ ""`, and `"invalid"` fails. -/
theorem C2_normalize_spec (p : Posting) :
    (pyStrip p.amount = "" →
      normalize_and_validate_posting p = Except.ok { p with amount := "" }) ∧
    (∀ num cur, SpecMatch (pyStrip p.amount).data num cur →
      normalize_and_validate_posting p =
        Except.ok { p with amount := cleanNum num ++ " " ++ curStr cur }) ∧
    (pyStrip p.amount ≠ "" → (∀ num cur, ¬ SpecMatch (pyStrip p.amount).data num cur) →
      normalize_and_validate_posting p =
        Except.error ("Invalid amount format: " ++ pyStrip p.amount)) ∧
    normalize_and_validate_posting { p with amount := "1,234.56 USD" } =
      Except.ok { p with amount := "1234.56 USD" } ∧
    normalize_and_validate_posting { p with amount := "100.00 usd" } =
      Except.ok { p with amount := "100.00 USD" } ∧
    normalize_and_validate_posting { p with amount := "123.45" } =
      Except.ok { p with amount := "123.45 CHF" } ∧
    normalize_and_validate_posting { p with amount := "" } =
      Except.ok { p with amount := "" } ∧
    normalize_and_validate_posting { p with amount := "invalid" } =
      Except.error "Invalid amount format: invalid" := by
  refine ⟨fun h => normalize_empty h, fun num cur h => ?_, fun hne hnone => ?_,
    rfl, rfl, rfl, rfl, rfl⟩
  · have hne : pyStrip p.amount ≠ "" := by
      intro he
      have : (pyStrip p.amount).data = [] := by rw [he]
      exact specMatch_ne_nil h this
    exact normalize_match hne (matchAmount_complete h)
  · cases hma : matchAmount (pyStrip p.amount).data with
    | none => exact normalize_nomatch hne hma
    | some pr =>
        obtain ⟨num, cur⟩ := pr
        exact absurd (matchAmount_sound hma) (hnone num cur)

theorem C2_normalize_spec_witness :
    normalize_and_validate_posting ⟨"Expenses:Food", "1,234.56 USD"⟩ =
      Except.ok ⟨"Expenses:Food", "1234.56 USD"⟩ := by
  have hsm : SpecMatch (pyStrip (Posting.mk "Expenses:Food" "1,234.56 USD").amount).data
      ("1,234.56".data) (some "USD".data) := by
    refine ⟨[' '], "USD".data, by decide, ?_, by decide,
      Or.inr ⟨'U', 'S', 'D', rfl, by decide, by decide, by decide, rfl⟩⟩
    refine ⟨[], [], ['1'], [',', '2', '3', '4', '.', '5', '6'], [], by decide,
      Or.inl rfl, by decide, by decide, by decide, ?_, Or.inl rfl⟩
    have h2 : IsGroups ['.', '5', '6'] := by
      have he : ('.' :: '5' :: (['6'] ++ [])) = ['.', '5', '6'] := by decide
      rw [← he]
      exact IsGroups.cons '.' '5' ['6'] [] (Or.inl rfl) (by decide) (by decide) IsGroups.nil
    have he : (',' :: '2' :: (['3', '4'] ++ ['.', '5', '6'])) =
        [',', '2', '3', '4', '.', '5', '6'] := by decide
    rw [← he]
    exact IsGroups.cons ',' '2' ['3', '4'] ['.', '5', '6'] (Or.inr rfl) (by decide)
      (by decide) h2
  have h := (C2_normalize_spec ⟨"Expenses:Food", "1,234.56 USD"⟩).2.1
    "1,234.56".data (some "USD".data) hsm
  exact h.trans (by rfl)

/-! ### Idempotence machinery -/

theorem ncPred_of_digit {c : Char} (h : c.isDigit = true) : ncPred c = true := by
  simp [ncPred, isDigit_ne_comma h, isDigit_ne_space h]

theorem filter_digits {ds : List Char} (h : ∀ c ∈ ds, c.isDigit = true) :
    ds.filter ncPred = ds :=
  List.filter_eq_self.mpr fun c hc => ncPred_of_digit (h c hc)

theorem filter_groups {gs : List Char} (h : IsGroups gs) :
    ∃ ds' gs', gs.filter ncPred = ds' ++ gs' ∧ (∀ c ∈ ds', c.isDigit = true) ∧
      IsGroups gs' := by
  induction h with
  | nil => exact ⟨[], [], rfl, by simp, IsGroups.nil⟩
  | cons sep d ds rest hsep hd hds hrest ih =>
      obtain ⟨ds', gs', heq, hds', hgs'⟩ := ih
      have hfds : ds.filter ncPred = ds := filter_digits hds
      rcases hsep with rfl | rfl
      · refine ⟨[], '.' :: d :: ((ds ++ ds') ++ gs'), ?_, by simp, ?_⟩
        · simp only [List.filter_cons, List.filter_append]
          rw [hfds, heq]
          simp [ncPred_of_digit hd, List.append_assoc]
          decide
        · have hdig : ∀ c ∈ ds ++ ds', c.isDigit = true := by
            intro c hc
            rcases List.mem_append.mp hc with hc | hc
            · exact hds c hc
            · exact hds' c hc
          exact IsGroups.cons '.' d (ds ++ ds') gs' (Or.inl rfl) hd hdig hgs'
      · refine ⟨d :: (ds ++ ds'), gs', ?_, ?_, hgs'⟩
        · simp only [List.filter_cons, List.filter_append]
          rw [hfds, heq]
          simp [ncPred_of_digit hd, List.append_assoc]
          decide
        · intro c hc
          rcases List.mem_cons.mp hc with rfl | hc
          · exact hd
          · rcases List.mem_append.mp hc with hc | hc
            · exact hds c hc
            · exact hds' c hc

theorem pyStripL_head_not_space {cs : List Char} {x : Char}
    (h : (pyStripL cs).head? = some x) : isPySpace x = false := by
  have hpre : pyStripL cs <+: pyLstripL cs := by
    unfold pyStripL pyRstripL
    have hs : (pyLstripL cs).reverse.dropWhile isPySpace <:+ (pyLstripL cs).reverse :=
      List.dropWhile_suffix isPySpace
    have h2 := List.reverse_prefix.mpr hs
    rwa [List.reverse_reverse] at h2
  obtain ⟨t, ht⟩ := hpre
  have hhead : (pyLstripL cs).head? = some x := by
    rw [← ht]
    cases hc : pyStripL cs with
    | nil => rw [hc] at h; exact absurd h (by simp)
    | cons a t2 =>
        rw [hc] at h
        rw [List.cons_append, List.head?_cons]
        exact congrArg some (Option.some.inj h)
  have := List.head?_dropWhile_not isPySpace cs
  unfold pyLstripL at hhead
  rw [hhead] at this
  exact this

theorem pyStripL_last_not_space {cs : List Char} {x : Char}
    (h : (pyStripL cs).getLast? = some x) : isPySpace x = false := by
  have hrev : (pyStripL cs).reverse = (pyLstripL cs).reverse.dropWhile isPySpace := by
    unfold pyStripL pyRstripL
    rw [List.reverse_reverse]
  have hh : ((pyLstripL cs).reverse.dropWhile isPySpace).head? = some x := by
    rw [← hrev, List.head?_reverse]
    exact h
  have := List.head?_dropWhile_not isPySpace (pyLstripL cs).reverse
  rw [hh] at this
  exact this

theorem pyStripL_eq_self {cs : List Char}
    (h1 : ∀ x, cs.head? = some x → isPySpace x = false)
    (h2 : ∀ x, cs.getLast? = some x → isPySpace x = false) :
    pyStripL cs = cs := by
  have hl : pyLstripL cs = cs := by
    unfold pyLstripL
    cases cs with
    | nil => rfl
    | cons a t => exact List.dropWhile_cons_of_neg (by simp [h1 a rfl])
  unfold pyStripL
  rw [hl]
  unfold pyRstripL
  cases hrev : cs.reverse with
  | nil => simp [List.reverse_eq_nil_iff.mp hrev]
  | cons a t =>
      have hlast : cs.getLast? = some a := by
        rw [← List.head?_reverse, hrev, List.head?_cons]
      rw [List.dropWhile_cons_of_neg (by simp [h2 a hlast])]
      rw [← hrev, List.reverse_reverse]

theorem pyStrip_eq_self {s : String}
    (h1 : ∀ x, s.data.head? = some x → isPySpace x = false)
    (h2 : ∀ x, s.data.getLast? = some x → isPySpace x = false) :
    pyStrip s = s := by
  cases s with
  | mk data => exact congrArg String.mk (pyStripL_eq_self h1 h2)

theorem isGroups_of_fraction {f : List Char}
    (hf : f = [] ∨ ∃ a b, f = ['.', a, b] ∧ a.isDigit = true ∧ b.isDigit = true) :
    IsGroups f := by
  rcases hf with rfl | ⟨a, b, rfl, ha, hb⟩
  · exact IsGroups.nil
  · have he : ('.' : Char) :: a :: ([b] ++ []) = ['.', a, b] := by simp
    rw [← he]
    exact IsGroups.cons '.' a [b] [] (Or.inl rfl) ha
      (by intro x hx; simp at hx; rw [hx]; exact hb) IsGroups.nil

/-- C3: amount normalization is idempotent — whenever `normalize` succeeds,
normalizing the result succeeds and returns the result unchanged. -/
theorem C3_normalize_idempotent (p q : Posting)
    (h : normalize_and_validate_posting p = Except.ok q) :
    normalize_and_validate_posting q = Except.ok q := by
  by_cases hne : pyStrip p.amount = ""
  · rw [normalize_empty hne] at h
    rw [← Except.ok.inj h]
    exact normalize_empty rfl
  · cases hma : matchAmount (pyStrip p.amount).data with
    | none => rw [normalize_nomatch hne hma] at h; exact absurd h (by simp)
    | some pr =>
      obtain ⟨num, cur⟩ := pr
      rw [normalize_match hne hma] at h
      have hq := Except.ok.inj h
      obtain ⟨w2, c, hs, hnum, hw2, hcur⟩ := matchAmount_sound hma
      obtain ⟨m, w, ds, gs, f, hnumeq, hm, hw, hdsne, hds, hgs, hf⟩ := hnum
      obtain ⟨CN, hCN⟩ : ∃ CN, num.filter ncPred = CN := ⟨_, rfl⟩
      have hCUR : ∃ x y z : Char, (curStr cur).data = [x, y, z] ∧
          x.isAlpha = true ∧ y.isAlpha = true ∧ z.isAlpha = true := by
        rcases hcur with ⟨hc0, rfl⟩ | ⟨a, b, c3, hc0, ha, hb, hc3, rfl⟩
        · exact ⟨'C', 'H', 'F', rfl, by decide, by decide, by decide⟩
        · refine ⟨a.toUpper, b.toUpper, c3.toUpper, ?_, isAlpha_toUpper ha,
            isAlpha_toUpper hb, isAlpha_toUpper hc3⟩
          rw [hc0]
          rfl
      obtain ⟨x, y, z, hCURdata, hx, hy, hz⟩ := hCUR
      have hAdata : q.amount.data = CN ++ (' ' :: (curStr cur).data) := by
        rw [← hq]
        show (cleanNum num ++ " " ++ curStr cur).data = _
        rw [String.data_append, String.data_append]
        show num.filter ncPred ++ [' '] ++ (curStr cur).data = _
        rw [hCN, List.append_assoc]
        rfl
      have hmf : m.filter ncPred = m := by
        rcases hm with rfl | rfl
        · rfl
        · decide
      have hdsf : ds.filter ncPred = ds := filter_digits hds
      have hff : f.filter ncPred = f := by
        rcases hf with rfl | ⟨a, b, rfl, ha, hb⟩
        · rfl
        · refine List.filter_eq_self.mpr ?_
          intro c2 hc2
          simp at hc2
          rcases hc2 with rfl | rfl | rfl
          · decide
          · exact ncPred_of_digit ha
          · exact ncPred_of_digit hb
      obtain ⟨ds', gs', hgsf, hds', hgs'⟩ := filter_groups hgs
      have hwf : ∀ c2 ∈ w.filter ncPred, isPySpace c2 = true :=
        fun c2 hc2 => hw c2 (List.mem_of_mem_filter hc2)
      have hw_nil : m = [] → w = [] := by
        intro hm0
        cases hwcase : w with
        | nil => rfl
        | cons w0 wt =>
            exfalso
            have hhead : (pyStrip p.amount).data.head? = some w0 := by
              rw [hs, hnumeq, hm0, hwcase]
              simp
            have hns := @pyStripL_head_not_space p.amount.data w0 hhead
            rw [hw w0 (by rw [hwcase]; simp)] at hns
            exact Bool.noConfusion hns
      have hCNeq : CN = m ++ (w.filter ncPred) ++ (ds ++ ds') ++ (gs' ++ f) ++ [] := by
        rw [← hCN, hnumeq]
        simp only [List.filter_append, hmf, hdsf, hff, hgsf]
        simp [List.append_assoc]
      have hCNnum : SpecNumber CN := by
        refine ⟨m, w.filter ncPred, ds ++ ds', gs' ++ f, [], hCNeq, hm, hwf, ?_, ?_, ?_,
          Or.inl rfl⟩
        · intro hcontra
          exact hdsne (List.append_eq_nil.mp hcontra).1
        · intro c2 hc2
          rcases List.mem_append.mp hc2 with hc2 | hc2
          · exact hds c2 hc2
          · exact hds' c2 hc2
        · exact hgs'.append (isGroups_of_fraction hf)
      have hSM : SpecMatch q.amount.data CN (some (curStr cur).data) := by
        refine ⟨[' '], (curStr cur).data, ?_, hCNnum, by decide,
          Or.inr ⟨x, y, z, hCURdata, hx, hy, hz, rfl⟩⟩
        rw [hAdata]
        simp [List.append_assoc]
      have hstrip : pyStrip q.amount = q.amount := by
        apply pyStrip_eq_self
        · intro t ht
          rw [hAdata] at ht
          rcases hm with hm0 | hm1
          · have hw0 := hw_nil hm0
            obtain ⟨d0, ds0, hds00⟩ : ∃ d0 ds0, ds = d0 :: ds0 := by
              cases ds with
              | nil => exact absurd rfl hdsne
              | cons a t2 => exact ⟨a, t2, rfl⟩
            have htd : t = d0 := by
              rw [hCNeq, hm0, hw0, hds00] at ht
              simp at ht
              exact ht.symm
            rw [htd]
            exact isPySpace_of_isDigit (hds d0 (by rw [hds00]; simp))
          · have htd : t = '-' := by
              rw [hCNeq, hm1] at ht
              simp at ht
              exact ht.symm
            rw [htd]
            decide
        · intro t ht
          rw [hAdata, hCURdata] at ht
          have htz : t = z := by
            rw [List.getLast?_append] at ht
            simp at ht
            exact ht.symm
          rw [htz]
          exact isPySpace_of_isAlpha hz
      have hAne : q.amount ≠ "" := by
        intro he
        have hd0 : q.amount.data = [] := by rw [he]
        rw [hAdata] at hd0
        simp at hd0
      have hrematch : matchAmount (pyStrip q.amount).data =
          some (CN, some (curStr cur).data) := by
        rw [hstrip]
        exact matchAmount_complete hSM
      have hfinal := normalize_match (p := q) (by rw [hstrip]; exact hAne) hrematch
      rw [hfinal]
      congr 1
      have hCNf : cleanNum CN = cleanNum num := by
        unfold cleanNum
        rw [← hCN]
        congr 1
        exact List.filter_eq_self.mpr (fun a ha => List.of_mem_filter ha)
      have hcurf : curStr (some (curStr cur).data) = curStr cur := by
        cases cur with
        | none => rfl
        | some c0 =>
            show String.mk ((List.map Char.toUpper c0).map Char.toUpper) =
              String.mk (c0.map Char.toUpper)
            congr 1
            rw [List.map_map]
            exact List.map_congr_left (fun a _ => toUpper_toUpper a)
      rw [hCNf, hcurf, ← hq]

theorem C3_normalize_idempotent_witness :
    normalize_and_validate_posting ⟨"Expenses:Food", "1234.56 USD"⟩ =
      Except.ok ⟨"Expenses:Food", "1234.56 USD"⟩ := by
  exact C3_normalize_idempotent ⟨"Expenses:Food", "1,234.56 USD"⟩
    ⟨"Expenses:Food", "1234.56 USD"⟩ (by rfl)

/-! ### The splicer against the claimed shape -/

/-- Leading-whitespace length of a line. -/
def leadingWS (line : String) : Nat := (line.data.takeWhile isPySpace).length

/-- The minimum positive leading-whitespace length among the lines. -/
def minPosIndent (ls : List String) : Option Nat :=
  (ls.filterMap fun l => if leadingWS l ≠ 0 then some (leadingWS l) else none).min?

/-- The postings of the list whose amount passes normalization, with
their normalized amounts. -/
def survivors (ps : List Posting) : List Posting :=
  ps.filterMap fun p => (normalize_and_validate_posting p).toOption

/-- The indentation prefix used for inserted lines. -/
def indentOf (s : String) : String :=
  String.mk (List.replicate ((minPosIndent (splitlines s)).getD 2) ' ')

/-- The output line built for one surviving posting. -/
def postingLine (s : String) (p : Posting) : String :=
  indentOf s ++ p.account ++ " " ++ p.amount

/-- The trailing fallback line. -/
def fallbackLine (s : String) (ps : List Posting) : String :=
  if survivors ps = [] then indentOf s ++ "Expenses:Family:Unclassified"
  else indentOf s ++ "Expenses:Family:Unclassified 0 CHF"

theorem leadingWS_eq (line : String) :
    line.length - (pyLstrip line).length = leadingWS line := by
  have h := congrArg List.length (List.takeWhile_append_dropWhile isPySpace line.data)
  rw [List.length_append] at h
  show line.data.length - (pyLstripL line.data).length = _
  unfold pyLstripL leadingWS
  omega

theorem replaceScan_fst : ∀ ls : List String, (replaceScan ls).1 = ls.filter keepLine := by
  intro ls
  induction ls with
  | nil => rfl
  | cons line ls ih =>
      rw [replaceScan.eq_def]
      simp only []
      cases hk : keepLine line with
      | true => simp [hk, List.filter_cons, ih]
      | false => simp [hk, List.filter_cons, ih]

theorem if_lt_eq_min (a b : Nat) : (if a < b then a else b) = min a b := by
  rcases Nat.lt_or_ge a b with h | h
  · rw [if_pos h, Nat.min_def, if_pos (Nat.le_of_lt h)]
  · rw [if_neg (Nat.not_lt.mpr h), Nat.min_def]
    rcases Nat.eq_or_lt_of_le h with rfl | h2
    · simp
    · rw [if_neg (Nat.not_le.mpr h2)]

theorem replaceScan_snd : ∀ ls : List String, (replaceScan ls).2 = minPosIndent ls := by
  intro ls
  induction ls with
  | nil => rfl
  | cons line ls ih =>
      rw [replaceScan.eq_def]
      simp only []
      have hbody : (if line.length - (pyLstrip line).length ≠ 0 then
          some (match (replaceScan ls).2 with
                | none => line.length - (pyLstrip line).length
                | some m => if line.length - (pyLstrip line).length < m then
                    line.length - (pyLstrip line).length else m)
          else (replaceScan ls).2) = minPosIndent (line :: ls) := by
        rw [leadingWS_eq, ih]
        unfold minPosIndent
        rw [List.filterMap_cons]
        by_cases h0 : leadingWS line ≠ 0
        · rw [if_pos h0, if_pos h0]
          rw [List.min?_cons]
          congr 1
          cases hmm : ((ls.filterMap fun l =>
              if leadingWS l ≠ 0 then some (leadingWS l) else none).min?) with
          | none => simp [Option.elim]
          | some m => simp [Option.elim, if_lt_eq_min]
        · rw [if_neg h0, if_neg h0]
      cases hk : keepLine line with
      | true => simpa [hk] using hbody
      | false => simpa [hk] using hbody

/-- The splicer, decomposed: kept lines, one line per surviving posting,
and the fallback line, joined by newlines. -/
theorem replace_spec (s : String) (ps : List Posting) :
    replace_unclassified_posting s ps =
      joinNL ((splitlines s).filter keepLine ++
        (survivors ps).map (postingLine s) ++ [fallbackLine s ps]) := by
  unfold replace_unclassified_posting
  simp only [replaceScan_fst, replaceScan_snd]
  apply congrArg joinNL
  rw [List.append_assoc]
  congr 1
  rw [show ps.filterMap (fun p => (normalize_and_validate_posting p).toOption) =
    survivors ps from rfl]
  by_cases hs0 : survivors ps = []
  · rw [hs0]
    simp [fallbackLine, hs0, postingLine, indentOf]
  · rw [if_neg (by simp [hs0])]
    simp [fallbackLine, hs0, postingLine, indentOf]

/-- C1: the splicer returns exactly the block's lines whose left-stripped
form starts with neither `Expenses:` nor `Income:` (in original order),
then one line `<indent><account> <amount>` per posting whose amount passes
normalization (in list order, with its normalized amount), then the
fallback line — bare `Expenses:Family:Unclassified` when no posting
survived, `Expenses:Family:Unclassified 0 CHF` otherwise — all joined by
single newlines. -/
theorem C1_replace_shape (entry_str : String) (new_postings : List Posting) :
    replace_unclassified_posting entry_str new_postings =
      joinNL ((splitlines entry_str).filter keepLine ++
        (survivors new_postings).map
          (fun p => indentOf entry_str ++ p.account ++ " " ++ p.amount) ++
        [if survivors new_postings = []
         then indentOf entry_str ++ "Expenses:Family:Unclassified"
         else indentOf entry_str ++ "Expenses:Family:Unclassified 0 CHF"]) := by
  rw [replace_spec]
  rfl

/-- C5: the splicer's output decomposes into the kept lines followed by
the inserted lines, and every inserted line (new posting lines and the
fallback line) begins with a prefix of spaces whose count is the minimum
positive leading-whitespace length among the original block's lines, or 2
when no line has positive leading whitespace. -/
theorem C5_inserted_indent (s : String) (ps : List Posting) :
    replace_unclassified_posting s ps =
      joinNL ((splitlines s).filter keepLine ++
        ((survivors ps).map (postingLine s) ++ [fallbackLine s ps])) ∧
    ∀ l ∈ (survivors ps).map (postingLine s) ++ [fallbackLine s ps],
      l.data.take ((minPosIndent (splitlines s)).getD 2) =
        List.replicate ((minPosIndent (splitlines s)).getD 2) ' ' := by
  constructor
  · rw [replace_spec, List.append_assoc]
  · intro l hl
    have hbase : ∀ rest : String,
        (String.mk (List.replicate ((minPosIndent (splitlines s)).getD 2) ' ') ++
          rest).data.take ((minPosIndent (splitlines s)).getD 2) =
        List.replicate ((minPosIndent (splitlines s)).getD 2) ' ' := by
      intro rest
      rw [String.data_append]
      exact List.take_left' (by simp)
    rcases List.mem_append.mp hl with hl | hl
    · obtain ⟨p, hp, rfl⟩ := List.mem_map.mp hl
      have : postingLine s p =
          String.mk (List.replicate ((minPosIndent (splitlines s)).getD 2) ' ') ++
            (p.account ++ (" " ++ p.amount)) := by
        unfold postingLine indentOf
        rw [String.append_assoc, String.append_assoc]
      rw [this]
      exact hbase _
    · simp only [List.mem_singleton] at hl
      subst hl
      unfold fallbackLine indentOf
      by_cases hs0 : survivors ps = []
      · rw [if_pos hs0]
        exact hbase _
      · rw [if_neg hs0]
        exact hbase _

theorem C5_inserted_indent_witness :
    ("  Expenses:Food 100.00 CHF" : String).data.take
        ((minPosIndent (splitlines
          "2024-01-01 * x\n  Assets:A -1 CHF\n  Expenses:Family:Unclassified")).getD 2) =
      List.replicate ((minPosIndent (splitlines
        "2024-01-01 * x\n  Assets:A -1 CHF\n  Expenses:Family:Unclassified")).getD 2) ' ' := by
  have h := (C5_inserted_indent
    "2024-01-01 * x\n  Assets:A -1 CHF\n  Expenses:Family:Unclassified"
    [⟨"Expenses:Food", "100.00 CHF"⟩]).2
    "  Expenses:Food 100.00 CHF" (by decide)
  exact h

/-- C6: the splicer never fails and drops invalid postings silently: its
output on any posting list equals its output on the sublist of postings
whose normalization succeeds, and the fallback line variant is chosen by
whether any posting survived. -/
theorem C6_drop_invalid (s : String) (ps : List Posting) :
    replace_unclassified_posting s ps =
      replace_unclassified_posting s
        (ps.filter fun p => (normalize_and_validate_posting p).toOption.isSome) ∧
    (survivors ps = [] → replace_unclassified_posting s ps =
      joinNL ((splitlines s).filter keepLine ++
        [indentOf s ++ "Expenses:Family:Unclassified"])) ∧
    (survivors ps ≠ [] → replace_unclassified_posting s ps =
      joinNL ((splitlines s).filter keepLine ++ (survivors ps).map (postingLine s) ++
        [indentOf s ++ "Expenses:Family:Unclassified 0 CHF"])) := by
  have hsv : survivors
      (ps.filter fun p => (normalize_and_validate_posting p).toOption.isSome) =
      survivors ps := by
    unfold survivors
    induction ps with
    | nil => rfl
    | cons p ps ih =>
        rw [List.filter_cons]
        cases hp : (normalize_and_validate_posting p).toOption with
        | some q => simp [List.filterMap_cons, hp, ih]
        | none => simp [List.filterMap_cons, hp, ih]
  refine ⟨?_, fun hs0 => ?_, fun hs0 => ?_⟩
  · rw [replace_spec, replace_spec]
    have hfb : fallbackLine s
        (ps.filter fun p => (normalize_and_validate_posting p).toOption.isSome) =
        fallbackLine s ps := by
      unfold fallbackLine
      rw [hsv]
    rw [hsv, hfb]
  · rw [replace_spec]
    unfold fallbackLine
    rw [hs0, if_pos rfl]
    simp
  · rw [replace_spec]
    unfold fallbackLine
    rw [if_neg hs0]

theorem C6_drop_invalid_witness :
    replace_unclassified_posting
      "2024-01-01 * x\n  Assets:A -1 CHF\n  Expenses:Family:Unclassified"
      [⟨"Expenses:Food", "100.00 CHF"⟩, ⟨"Expenses:T", "invalid"⟩] =
    joinNL ((splitlines
        "2024-01-01 * x\n  Assets:A -1 CHF\n  Expenses:Family:Unclassified").filter
          keepLine ++
      (survivors [⟨"Expenses:Food", "100.00 CHF"⟩, ⟨"Expenses:T", "invalid"⟩]).map
        (postingLine "2024-01-01 * x\n  Assets:A -1 CHF\n  Expenses:Family:Unclassified") ++
      [indentOf "2024-01-01 * x\n  Assets:A -1 CHF\n  Expenses:Family:Unclassified" ++
        "Expenses:Family:Unclassified 0 CHF"]) :=
  (C6_drop_invalid
    "2024-01-01 * x\n  Assets:A -1 CHF\n  Expenses:Family:Unclassified"
    [⟨"Expenses:Food", "100.00 CHF"⟩, ⟨"Expenses:T", "invalid"⟩]).2.2 (by decide)

/-- C10: a posting whose amount is empty or only whitespace survives the
splicer: normalization maps it to the empty amount, its output line is
`<indent><account> ` with a trailing space, and the fallback line is the
`0 CHF` variant. -/
theorem C10_blank_amount_survives (s acc amt : String) (ps1 ps2 : List Posting)
    (hws : pyStrip amt = "") :
    survivors (ps1 ++ ⟨acc, amt⟩ :: ps2) =
      survivors ps1 ++ ⟨acc, ""⟩ :: survivors ps2 ∧
    replace_unclassified_posting s (ps1 ++ ⟨acc, amt⟩ :: ps2) =
      joinNL ((splitlines s).filter keepLine ++
        ((survivors ps1).map (postingLine s) ++ (indentOf s ++ acc ++ " ") ::
          (survivors ps2).map (postingLine s)) ++
        [indentOf s ++ "Expenses:Family:Unclassified 0 CHF"]) := by
  have hnp : normalize_and_validate_posting ⟨acc, amt⟩ = Except.ok ⟨acc, ""⟩ :=
    normalize_empty (p := ⟨acc, amt⟩) hws
  have hsv : survivors (ps1 ++ ⟨acc, amt⟩ :: ps2) =
      survivors ps1 ++ ⟨acc, ""⟩ :: survivors ps2 := by
    unfold survivors
    rw [List.filterMap_append, List.filterMap_cons, hnp]
    rfl
  refine ⟨hsv, ?_⟩
  rw [replace_spec]
  unfold fallbackLine
  rw [hsv, if_neg (by simp)]
  rw [List.map_append, List.map_cons]
  have hline : postingLine s ⟨acc, ""⟩ = indentOf s ++ acc ++ " " := by
    unfold postingLine
    exact String.append_empty _
  rw [hline]

theorem C10_blank_amount_survives_witness :
    replace_unclassified_posting
      "2024-01-01 * x\n  Assets:A -1 CHF\n  Expenses:Family:Unclassified"
      [⟨"Expenses:Food", "  "⟩] =
    joinNL ((splitlines
        "2024-01-01 * x\n  Assets:A -1 CHF\n  Expenses:Family:Unclassified").filter
          keepLine ++
      ((survivors []).map
          (postingLine "2024-01-01 * x\n  Assets:A -1 CHF\n  Expenses:Family:Unclassified") ++
        (indentOf "2024-01-01 * x\n  Assets:A -1 CHF\n  Expenses:Family:Unclassified" ++
            "Expenses:Food" ++ " ") ::
          (survivors []).map
            (postingLine "2024-01-01 * x\n  Assets:A -1 CHF\n  Expenses:Family:Unclassified")) ++
      [indentOf "2024-01-01 * x\n  Assets:A -1 CHF\n  Expenses:Family:Unclassified" ++
        "Expenses:Family:Unclassified 0 CHF"]) :=
  (C10_blank_amount_survives
    "2024-01-01 * x\n  Assets:A -1 CHF\n  Expenses:Family:Unclassified"
    "Expenses:Food" "  " [] [] (by decide)).2

/-! ### C8: empty posting list -/

theorem keepLine_indent_unclassified (k : Nat) :
    keepLine (String.mk (List.replicate k ' ') ++ "Expenses:Family:Unclassified") = false := by
  have hcons : ("Expenses:Family:Unclassified" : String).data =
      'E' :: ("xpenses:Family:Unclassified" : String).data := rfl
  have hdrop : pyLstripL ((String.mk (List.replicate k ' ') ++
      ("Expenses:Family:Unclassified" : String)).data) =
      ("Expenses:Family:Unclassified" : String).data := by
    rw [String.data_append, hcons]
    show (List.replicate k ' ' ++
      'E' :: ("xpenses:Family:Unclassified" : String).data).dropWhile isPySpace = _
    rw [dropWhile_append_cons
      (fun c hc => by rw [List.eq_of_mem_replicate hc]; rfl) (by decide)]
  unfold keepLine pyLstrip
  rw [hdrop]
  decide

/-- C8 as stated is false: on a block whose last (and only) line is the
bare catch-all at the minimum positive indent, but which ends with a
newline, the splicer with an empty posting list drops the trailing
newline, so the block is not returned byte-for-byte. -/
theorem C8_counterexample :
    splitlines "  Expenses:Family:Unclassified\n" =
      ["  Expenses:Family:Unclassified"] ∧
    minPosIndent (splitlines "  Expenses:Family:Unclassified\n") = some 2 ∧
    ("  Expenses:Family:Unclassified" : String) =
      String.mk (List.replicate 2 ' ') ++ "Expenses:Family:Unclassified" ∧
    keepLine "  Expenses:Family:Unclassified" = false ∧
    replace_unclassified_posting "  Expenses:Family:Unclassified\n" [] ≠
      "  Expenses:Family:Unclassified\n" := by
  refine ⟨by decide, by decide, by decide, by decide, by decide⟩

/-- C8 amended: the identity holds when additionally the block equals the
newline-join of its lines (no trailing newline, `\n` separators only). -/
theorem C8_amended (s : String) (ls init : List String) (k : Nat)
    (hls : splitlines s = ls)
    (hrt : s = joinNL ls)
    (hsplit : ls = init ++
      [String.mk (List.replicate k ' ') ++ "Expenses:Family:Unclassified"])
    (hmin : minPosIndent ls = some k)
    (hothers : ∀ l ∈ init, keepLine l = true) :
    replace_unclassified_posting s [] = s := by
  rw [replace_spec]
  have hind : indentOf s = String.mk (List.replicate k ' ') := by
    unfold indentOf
    rw [hls, hmin]
    rfl
  have hfb : fallbackLine s [] =
      String.mk (List.replicate k ' ') ++ "Expenses:Family:Unclassified" := by
    unfold fallbackLine
    have h00 : survivors ([] : List Posting) = [] := rfl
    rw [if_pos h00, hind]
  have hfilter : (splitlines s).filter keepLine = init := by
    rw [hls, hsplit, List.filter_append]
    rw [List.filter_eq_self.mpr hothers]
    simp [keepLine_indent_unclassified k]
  rw [hfilter, hfb]
  show joinNL (init ++ [] ++
    [String.mk (List.replicate k ' ') ++ "Expenses:Family:Unclassified"]) = s
  rw [List.append_nil, ← hsplit, ← hrt]

theorem C8_amended_witness :
    replace_unclassified_posting
      "  Assets:Checking -100.00 CHF\n  Expenses:Family:Unclassified" [] =
    "  Assets:Checking -100.00 CHF\n  Expenses:Family:Unclassified" :=
  C8_amended "  Assets:Checking -100.00 CHF\n  Expenses:Family:Unclassified"
    ["  Assets:Checking -100.00 CHF", "  Expenses:Family:Unclassified"]
    ["  Assets:Checking -100.00 CHF"] 2 (by decide) (by decide) (by decide)
    (by decide) (by decide)

/-! ### C4: narration branch behaviour -/

/-- C4: on a header containing `*` whose split on `"` has an odd fragment
count, with quotes stripped from the supplied narration first: with at
least 4 fragments a non-empty narration replaces fragment 3 and the
fragments are rejoined with `"`, while an empty narration rebuilds the
header from fragments 0..2 joined by `"` with trailing whitespace
trimmed; with exactly 3 fragments and a non-empty narration the header
becomes fragments 0..2 joined by `"`, a space, and the narration in
quotes.  The cited examples are instances of the three branches. -/
theorem C4_narration_branches (s n : String) (h : String) (rest : List String)
    (hsplit : splitlines s = h :: rest)
    (hstar : h.data.contains '*' = true)
    (hodd : (pySplit '"' h).length % 2 = 1) :
    ((4 ≤ (pySplit '"' h).length ∧ stripN n ≠ "") →
      change_narration s n =
        joinNL (pyJoin "\"" ((pySplit '"' h).set 3 (stripN n)) :: rest)) ∧
    ((4 ≤ (pySplit '"' h).length ∧ stripN n = "") →
      change_narration s n =
        joinNL (pyRstrip (pyJoin "\"" ((pySplit '"' h).take 3)) :: rest)) ∧
    (((pySplit '"' h).length = 3 ∧ stripN n ≠ "") →
      change_narration s n =
        joinNL ((pyJoin "\"" ((pySplit '"' h).take 3) ++ " \"" ++ stripN n ++ "\"") :: rest)) := by
  have hmod : ¬((pySplit '"' h).length % 2 = 0) := by omega
  refine ⟨fun ⟨h4, hn⟩ => ?_, fun ⟨h4, hn⟩ => ?_, fun ⟨h3, hn⟩ => ?_⟩
  · simp only [change_narration, hsplit, hstar, Bool.not_true, Bool.false_eq_true,
      if_false, if_neg hmod, if_pos h4, if_neg hn]
  · simp only [change_narration, hsplit, hstar, Bool.not_true, Bool.false_eq_true,
      if_false, if_neg hmod, if_pos h4, if_pos hn]
  · have hnot4 : ¬(4 ≤ (pySplit '"' h).length) := by omega
    have h3le : 3 ≤ (pySplit '"' h).length := by omega
    simp only [change_narration, hsplit, hstar, Bool.not_true, Bool.false_eq_true,
      if_false, if_neg hmod, if_neg hnot4, if_pos h3le, if_pos hn]

theorem C4_narration_branches_witness :
    change_narration "2024-01-01 * \"Payee\" \"Old\"" "New" =
        "2024-01-01 * \"Payee\" \"New\"" ∧
    change_narration "2024-01-01 * \"Payee\" \"Old\"" "" = "2024-01-01 * \"Payee\"" ∧
    change_narration "2024-01-01 * \"Payee\"" "New" =
        "2024-01-01 * \"Payee\" \"New\"" := by
  refine ⟨?_, ?_, ?_⟩
  · have h := (C4_narration_branches "2024-01-01 * \"Payee\" \"Old\"" "New"
      "2024-01-01 * \"Payee\" \"Old\"" [] (by decide) (by decide) (by decide)).1
      ⟨by decide, by decide⟩
    exact h.trans (by decide)
  · have h := (C4_narration_branches "2024-01-01 * \"Payee\" \"Old\"" ""
      "2024-01-01 * \"Payee\" \"Old\"" [] (by decide) (by decide) (by decide)).2.1
      ⟨by decide, by decide⟩
    exact h.trans (by decide)
  · have h := (C4_narration_branches "2024-01-01 * \"Payee\"" "New"
      "2024-01-01 * \"Payee\"" [] (by decide) (by decide) (by decide)).2.2
      ⟨by decide, by decide⟩
    exact h.trans (by decide)

/-! ### C7: narration no-op cases -/

/-- C7 as stated is false: in the fewer-than-3-fragments case the code
returns the newline-join of the block's lines, not the input itself, so a
block with a trailing newline comes back without it. -/
theorem C7_counterexample :
    splitlines "2024-01-01 * payee\n" = ["2024-01-01 * payee"] ∧
    ("2024-01-01 * payee" : String).data.contains '*' = true ∧
    (pySplit '"' "2024-01-01 * payee").length = 1 ∧
    change_narration "2024-01-01 * payee\n" "x" ≠ "2024-01-01 * payee\n" := by
  decide

/-- C7 amended: `setNarration` is total; the empty-block, missing-`*` and
even-fragment cases return the input itself; the fewer-than-3-fragment
and 3-fragments-with-empty-narration cases return the newline-join of the
block's lines, which is the input itself whenever the input equals that
join (no trailing newline, `\n` separators only). -/
theorem C7_no_op_cases (s n : String) :
    (splitlines s = [] → change_narration s n = s) ∧
    (∀ h rest, splitlines s = h :: rest → h.data.contains '*' = false →
      change_narration s n = s) ∧
    (∀ h rest, splitlines s = h :: rest → (pySplit '"' h).length % 2 = 0 →
      change_narration s n = s) ∧
    (∀ h rest, splitlines s = h :: rest → h.data.contains '*' = true →
      (pySplit '"' h).length % 2 = 1 → (pySplit '"' h).length < 3 →
      change_narration s n = joinNL (splitlines s)) ∧
    (∀ h rest, splitlines s = h :: rest → h.data.contains '*' = true →
      (pySplit '"' h).length % 2 = 1 → (pySplit '"' h).length = 3 → n = "" →
      change_narration s n = joinNL (splitlines s)) ∧
    (s = joinNL (splitlines s) → ∀ h rest, splitlines s = h :: rest →
      h.data.contains '*' = true → (pySplit '"' h).length % 2 = 1 →
      ((pySplit '"' h).length < 3 ∨ ((pySplit '"' h).length = 3 ∧ n = "")) →
      change_narration s n = s) := by
  have case4 : ∀ h rest, splitlines s = h :: rest → h.data.contains '*' = true →
      (pySplit '"' h).length % 2 = 1 → (pySplit '"' h).length < 3 →
      change_narration s n = joinNL (splitlines s) := by
    intro h rest hsplit hstar hodd hlt
    have hmod : ¬((pySplit '"' h).length % 2 = 0) := by omega
    have hnot4 : ¬(4 ≤ (pySplit '"' h).length) := by omega
    have hnot3 : ¬(3 ≤ (pySplit '"' h).length) := by omega
    simp only [change_narration, hsplit, hstar, Bool.not_true, Bool.false_eq_true,
      if_false, if_neg hmod, if_neg hnot4, if_neg hnot3]
  have case5 : ∀ h rest, splitlines s = h :: rest → h.data.contains '*' = true →
      (pySplit '"' h).length % 2 = 1 → (pySplit '"' h).length = 3 → n = "" →
      change_narration s n = joinNL (splitlines s) := by
    intro h rest hsplit hstar hodd h3 hn0
    have hmod : ¬((pySplit '"' h).length % 2 = 0) := by omega
    have hnot4 : ¬(4 ≤ (pySplit '"' h).length) := by omega
    have h3le : 3 ≤ (pySplit '"' h).length := by omega
    have hns : ¬(stripN n ≠ "") := by rw [hn0]; simp [stripN]
    simp only [change_narration, hsplit, hstar, Bool.not_true, Bool.false_eq_true,
      if_false, if_neg hmod, if_neg hnot4, if_pos h3le, if_neg hns]
  refine ⟨fun h0 => ?_, fun h rest hsplit hstar => ?_, fun h rest hsplit heven => ?_,
    case4, case5, fun hrt h rest hsplit hstar hodd hcase => ?_⟩
  · simp only [change_narration, h0]
  · simp only [change_narration, hsplit, hstar, Bool.not_false, if_true]
  · cases hstar : h.data.contains '*' with
    | false => simp only [change_narration, hsplit, hstar, Bool.not_false, if_true]
    | true =>
        simp only [change_narration, hsplit, hstar, Bool.not_true, Bool.false_eq_true,
          if_false, if_pos heven]
  · rcases hcase with hlt | ⟨h3, hn0⟩
    · rw [case4 h rest hsplit hstar hodd hlt, ← hrt]
    · rw [case5 h rest hsplit hstar hodd h3 hn0, ← hrt]

theorem C7_no_op_cases_witness :
    change_narration "2024-01-01 * payee" "x" = "2024-01-01 * payee" :=
  (C7_no_op_cases "2024-01-01 * payee" "x").2.2.2.2.2 (by decide)
    "2024-01-01 * payee" [] (by decide) (by decide) (by decide)
    (Or.inl (by decide))

/-! ### C9: the rewriter touches only the first line -/

/-- A string free of line-boundary characters. -/
def LF (s : String) : Prop := ∀ c ∈ s.data, isLineBreak c = false

theorem splitlinesAux_nb {c : Char} (sk : Bool) (acc rest : List Char)
    (hc : isLineBreak c = false) :
    splitlinesAux sk acc (c :: rest) = splitlinesAux false (c :: acc) rest := by
  have hn : c ≠ '\n' := by
    intro he
    rw [he] at hc
    exact absurd hc (by decide)
  simp [splitlinesAux, hc, hn]

theorem splitlinesAux_newline (acc rest : List Char) :
    splitlinesAux false acc ('\n' :: rest) =
      acc.reverse :: splitlinesAux false [] rest := by
  rw [splitlinesAux.eq_2]
  rw [if_neg (by simp), if_pos (by decide)]
  rfl

theorem splitlinesAux_no_break (cs : List Char) :
    ∀ acc, (∀ c ∈ cs, isLineBreak c = false) →
    splitlinesAux false acc cs =
      if acc = [] ∧ cs = [] then [] else [acc.reverse ++ cs] := by
  induction cs with
  | nil =>
      intro acc _
      cases hacc : acc with
      | nil => simp [splitlinesAux]
      | cons a t => simp [splitlinesAux]
  | cons c rest ih =>
      intro acc h
      rw [splitlinesAux_nb false acc rest (h c (by simp))]
      rw [ih (c :: acc) (fun x hx => h x (by simp [hx]))]
      simp

theorem splitlinesAux_append_newline (xs : List Char) :
    ∀ acc rest, (∀ c ∈ xs, isLineBreak c = false) →
    splitlinesAux false acc (xs ++ '\n' :: rest) =
      (acc.reverse ++ xs) :: splitlinesAux false [] rest := by
  induction xs with
  | nil =>
      intro acc rest _
      simpa using splitlinesAux_newline acc rest
  | cons x xs' ih =>
      intro acc rest h
      rw [List.cons_append, splitlinesAux_nb false acc _ (h x (by simp))]
      rw [ih (x :: acc) rest (fun c hc => h c (by simp [hc]))]
      simp

theorem splitlinesAux_ne_nil (cs : List Char) :
    ∀ acc, (acc ≠ [] ∨ cs ≠ []) → splitlinesAux false acc cs ≠ [] := by
  induction cs with
  | nil =>
      intro acc h
      rcases h with h | h
      · simp [splitlinesAux, h]
      · exact absurd rfl h
  | cons c rest ih =>
      intro acc _
      rw [splitlinesAux.eq_2]
      rw [if_neg (by simp)]
      by_cases h2 : isLineBreak c = true
      · rw [if_pos h2]
        simp
      · rw [if_neg h2]
        exact ih (c :: acc) (Or.inl (by simp))

theorem splitlinesAux_nil_mem {sk : Bool} {acc : List Char}
    (hacc : ∀ c ∈ acc, isLineBreak c = false) :
    ∀ l ∈ splitlinesAux sk acc [], ∀ c ∈ l, isLineBreak c = false := by
  rw [splitlinesAux.eq_1]
  by_cases h : acc = []
  · rw [if_pos h]
    intro l hl
    simp at hl
  · rw [if_neg h]
    intro l hl c hc
    simp only [List.mem_singleton] at hl
    subst hl
    exact hacc c (List.mem_reverse.mp hc)

theorem splitlinesAux_breakfree : ∀ (n : Nat) (cs : List Char), cs.length ≤ n →
    ∀ (sk : Bool) (acc : List Char), (∀ c ∈ acc, isLineBreak c = false) →
    ∀ l ∈ splitlinesAux sk acc cs, ∀ c ∈ l, isLineBreak c = false := by
  intro n
  induction n with
  | zero =>
      intro cs hlen sk acc hacc
      have hnil : cs = [] := List.length_eq_zero.mp (Nat.le_zero.mp hlen)
      subst hnil
      exact splitlinesAux_nil_mem hacc
  | succ n ih =>
      intro cs hlen sk acc hacc
      cases cs with
      | nil => exact splitlinesAux_nil_mem hacc
      | cons c0 rest =>
          have hlen' : rest.length ≤ n := by
            simp only [List.length_cons] at hlen
            omega
          intro l hl c hc
          rw [splitlinesAux.eq_2] at hl
          by_cases h1 : sk = true ∧ c0 = '\n'
          · rw [if_pos h1] at hl
            exact ih rest hlen' false acc hacc l hl c hc
          · rw [if_neg h1] at hl
            by_cases h2 : isLineBreak c0 = true
            · rw [if_pos h2] at hl
              rcases List.mem_cons.mp hl with rfl | hl
              · exact hacc c (List.mem_reverse.mp hc)
              · exact ih rest hlen' (decide (c0 = '\r')) [] (by simp) l hl c hc
            · rw [if_neg h2] at hl
              have h2' : isLineBreak c0 = false := by
                cases hb : isLineBreak c0 with
                | false => rfl
                | true => exact absurd hb h2
              exact ih rest hlen' false (c0 :: acc)
                (by
                  intro x hx
                  rcases List.mem_cons.mp hx with rfl | hx
                  · exact h2'
                  · exact hacc x hx) l hl c hc

theorem splitlines_breakfree (s : String) : ∀ l ∈ splitlines s, LF l := by
  intro l hl
  unfold splitlines at hl
  obtain ⟨ld, hld, rfl⟩ := List.mem_map.mp hl
  intro c hc
  exact splitlinesAux_breakfree s.data.length s.data le_rfl false [] (by simp) ld hld c hc

theorem splitlines_ne_nil {s : String} (h : s ≠ "") : splitlines s ≠ [] := by
  have hd : s.data ≠ [] := by
    intro he
    apply h
    cases s with
    | mk d => exact congrArg String.mk he
  unfold splitlines
  intro hmap
  exact splitlinesAux_ne_nil s.data [] (Or.inr hd) (List.map_eq_nil_iff.mp hmap)

theorem joinNL_cons (l : String) (ls : List String) (hne : ls ≠ []) :
    joinNL (l :: ls) = l ++ "\n" ++ joinNL ls := by
  cases ls with
  | nil => exact absurd rfl hne
  | cons a t => rfl

theorem data_append_nl (l J : String) :
    (l ++ "\n" ++ J).data = l.data ++ '\n' :: J.data := by
  rw [String.data_append, String.data_append]
  simp [List.append_assoc]

theorem splitlines_joinNL : ∀ (ls : List String), ls ≠ [] → (∀ l ∈ ls, LF l) →
    ls.getLast? ≠ some "" → splitlines (joinNL ls) = ls
  | [], hne, _, _ => absurd rfl hne
  | [l], _, hfree, hlast => by
      have hl : l ≠ "" := fun he => hlast (by rw [he]; rfl)
      have hld : l.data ≠ [] := by
        intro he
        apply hl
        cases l with
        | mk d => exact congrArg String.mk he
      show splitlines (joinNL [l]) = [l]
      rw [show joinNL [l] = l from rfl]
      unfold splitlines
      rw [splitlinesAux_no_break l.data [] (hfree l (by simp))]
      rw [if_neg (by simp [hld])]
      simp
  | l :: l2 :: t, _, hfree, hlast => by
      rw [joinNL_cons l (l2 :: t) (by simp)]
      have hIH := splitlines_joinNL (l2 :: t) (by simp)
        (fun x hx => hfree x (List.mem_cons_of_mem l hx))
        (by rw [← List.getLast?_cons_cons]; exact hlast)
      unfold splitlines
      rw [data_append_nl]
      rw [splitlinesAux_append_newline l.data [] (joinNL (l2 :: t)).data
        (hfree l (by simp))]
      rw [List.map_cons]
      unfold splitlines at hIH
      rw [List.reverse_nil, List.nil_append, hIH]

theorem LF_append {a b : String} (ha : LF a) (hb : LF b) : LF (a ++ b) := by
  intro c hc
  rw [String.data_append] at hc
  rcases List.mem_append.mp hc with h | h
  · exact ha c h
  · exact hb c h

theorem LF_quote : LF "\"" := by
  intro c hc
  simp only [List.mem_singleton] at hc
  rw [hc]
  rfl

theorem LF_pyJoinQ : ∀ (parts : List String), (∀ p ∈ parts, LF p) →
    LF (pyJoin "\"" parts)
  | [], _ => by
      intro c hc
      exact absurd hc (List.not_mem_nil c)
  | [l], h => by
      intro c hc
      exact h l (by simp) c hc
  | l :: l2 :: t, h => by
      have h1 : LF l := h l (by simp)
      have h2 : LF (pyJoin "\"" (l2 :: t)) :=
        LF_pyJoinQ (l2 :: t) (fun p hp => h p (List.mem_cons_of_mem l hp))
      exact LF_append (LF_append h1 LF_quote) h2

theorem LF_stripN {n : String} (h : LF n) : LF (stripN n) := by
  unfold stripN
  by_cases hn : n ≠ ""
  · rw [if_pos hn]
    intro c hc
    exact h c (List.mem_of_mem_filter hc)
  · rw [if_neg hn]
    exact h

theorem LF_pyRstrip {x : String} (h : LF x) : LF (pyRstrip x) := by
  intro c hc
  apply h
  show c ∈ x.data
  unfold pyRstrip pyRstripL at hc
  have hc' := List.mem_reverse.mp hc
  have := (List.dropWhile_sublist (l := x.data.reverse) isPySpace).subset hc'
  exact List.mem_reverse.mp this

theorem pySplitL_chars (sep : Char) : ∀ (cs : List Char) (x : List Char),
    x ∈ pySplitL sep cs → ∀ c ∈ x, c ∈ cs := by
  intro cs
  induction cs with
  | nil =>
      intro x hx c hc
      simp only [pySplitL, List.mem_singleton] at hx
      subst hx
      exact absurd hc (List.not_mem_nil c)
  | cons a rest ih =>
      intro x hx c hc
      by_cases ha : a = sep
      · simp only [pySplitL, if_pos ha] at hx
        rcases List.mem_cons.mp hx with rfl | hx
        · exact absurd hc (List.not_mem_nil c)
        · exact List.mem_cons_of_mem a (ih x hx c hc)
      · cases hr : pySplitL sep rest with
        | nil =>
            simp only [pySplitL, if_neg ha, hr, List.mem_singleton] at hx
            subst hx
            simp only [List.mem_singleton] at hc
            rw [hc]
            exact List.mem_cons_self a rest
        | cons h1 t1 =>
            simp only [pySplitL, if_neg ha, hr] at hx
            rcases List.mem_cons.mp hx with rfl | hx
            · rcases List.mem_cons.mp hc with rfl | hc
              · exact List.mem_cons_self c rest
              · have hm : c ∈ rest :=
                  ih h1 (by rw [hr]; exact List.mem_cons_self h1 t1) c hc
                exact List.mem_cons_of_mem a hm
            · have hx' : x ∈ pySplitL sep rest := by
                rw [hr]
                exact List.mem_cons_of_mem h1 hx
              exact List.mem_cons_of_mem a (ih x hx' c hc)

theorem LF_parts {h : String} (hLF : LF h) :
    ∀ p ∈ pySplit '"' h, LF p := by
  intro p hp
  unfold pySplit at hp
  obtain ⟨pd, hpd, rfl⟩ := List.mem_map.mp hp
  intro c hc
  exact hLF c (pySplitL_chars '"' h.data pd hpd c hc)

theorem pySplitL_ne_nil (sep : Char) : ∀ (cs : List Char), pySplitL sep cs ≠ [] := by
  intro cs
  cases cs with
  | nil => simp [pySplitL]
  | cons a rest =>
      by_cases ha : a = sep
      · simp [pySplitL, ha]
      · cases hr : pySplitL sep rest with
        | nil => simp [pySplitL, ha, hr]
        | cons h1 t1 => simp [pySplitL, ha, hr]

theorem pyJoinQ_ne_empty {parts : List String} (h2 : 2 ≤ parts.length) :
    pyJoin "\"" parts ≠ "" := by
  match parts, h2 with
  | a :: b :: t, _ =>
      intro he
      have hd : (pyJoin "\"" (a :: b :: t)).data = [] := by
        rw [he]
      rw [show pyJoin "\"" (a :: b :: t) = a ++ "\"" ++ pyJoin "\"" (b :: t) from rfl] at hd
      rw [String.data_append, String.data_append] at hd
      simp at hd

theorem data_append_q (l J : String) :
    (l ++ "\"" ++ J).data = l.data ++ '"' :: J.data := by
  rw [String.data_append, String.data_append]
  simp [List.append_assoc]

theorem pyRstrip_eq_empty {x : String} (h : pyRstrip x = "") :
    ∀ c ∈ x.data, isPySpace c = true := by
  intro c hc
  have hd : pyRstripL x.data = [] := congrArg String.data h
  unfold pyRstripL at hd
  have hdrop : x.data.reverse.dropWhile isPySpace = [] := by
    have := congrArg List.reverse hd
    simpa using this
  exact List.dropWhile_eq_nil_iff.mp hdrop c (List.mem_reverse.mpr hc)

theorem pyRstrip_join_ne_empty {parts : List String} (h3 : 3 ≤ parts.length) :
    pyRstrip (pyJoin "\"" (parts.take 3)) ≠ "" := by
  match parts, h3 with
  | p0 :: p1 :: p2 :: rest, _ =>
      intro he
      have htake : (p0 :: p1 :: p2 :: rest).take 3 = [p0, p1, p2] := rfl
      rw [htake] at he
      have hjd : (pyJoin "\"" [p0, p1, p2]).data =
          p0.data ++ '"' :: (p1.data ++ '"' :: p2.data) := by
        rw [show pyJoin "\"" [p0, p1, p2] = p0 ++ "\"" ++ (p1 ++ "\"" ++ p2) from rfl]
        rw [data_append_q, data_append_q]
      have hmem : '"' ∈ (pyJoin "\"" [p0, p1, p2]).data := by
        rw [hjd]
        simp
      have := pyRstrip_eq_empty he '"' hmem
      exact absurd this (by decide)

/-- C9 as stated is false: a narration containing a newline is inserted
verbatim into the header, so the output has more lines than the input. -/
theorem C9_counterexample :
    ("2024-01-01 * \"P\" \"O\"\nx" : String) ≠ "" ∧
    (splitlines "2024-01-01 * \"P\" \"O\"\nx").length = 2 ∧
    (splitlines (change_narration "2024-01-01 * \"P\" \"O\"\nx" "a\nb")).length = 3 := by
  refine ⟨by decide, by decide, by decide⟩

/-- C9 amended: when the supplied narration contains no line-boundary
character and the block's last line is non-empty, `setNarration` modifies
at most the first line — the output has the same number of lines and the
lines after the first are unchanged. -/
theorem C9_frame (s n : String) (hne : s ≠ "") (hn : LF n)
    (hlast : (splitlines s).getLast? ≠ some "") :
    (splitlines (change_narration s n)).length = (splitlines s).length ∧
    (splitlines (change_narration s n)).drop 1 = (splitlines s).drop 1 := by
  obtain ⟨h, rest, hsplit⟩ : ∃ h rest, splitlines s = h :: rest := by
    cases hspl : splitlines s with
    | nil => exact absurd hspl (splitlines_ne_nil hne)
    | cons a t => exact ⟨a, t, rfl⟩
  have hfree := splitlines_breakfree s
  have hLFh : LF h := hfree h (by rw [hsplit]; simp)
  have hLFrest : ∀ l ∈ rest, LF l := fun l hl => hfree l (by rw [hsplit]; simp [hl])
  have hfin : ∀ h' : String, LF h' → (rest = [] → h' ≠ "") →
      (splitlines (joinNL (h' :: rest))).length = (splitlines s).length ∧
      (splitlines (joinNL (h' :: rest))).drop 1 = (splitlines s).drop 1 := by
    intro h' hLF' hne'
    have hsp : splitlines (joinNL (h' :: rest)) = h' :: rest := by
      apply splitlines_joinNL (h' :: rest) (by simp)
      · intro l hl
        rcases List.mem_cons.mp hl with rfl | hl
        · exact hLF'
        · exact hLFrest l hl
      · cases hr : rest with
        | nil =>
            intro hLast
            simp only [List.getLast?_singleton, Option.some.injEq] at hLast
            exact (hne' hr) hLast
        | cons r0 rt =>
            rw [List.getLast?_cons_cons]
            have : (r0 :: rt).getLast? = (h :: r0 :: rt).getLast? :=
              (List.getLast?_cons_cons (a := h) (b := r0) (l := rt)).symm
            rw [this, ← hr, ← hsplit]
            exact hlast
    rw [hsp, hsplit]
    simp
  have hfallback : rest = [] → h ≠ "" := by
    intro hr0 he
    apply hlast
    rw [hsplit, hr0, he]
    rfl
  by_cases hstar : h.data.contains '*' = true
  · by_cases heven : (pySplit '"' h).length % 2 = 0
    · have hout : change_narration s n = s := by
        simp only [change_narration, hsplit, hstar, Bool.not_true, Bool.false_eq_true,
          if_false, if_pos heven]
      rw [hout]
      exact ⟨rfl, rfl⟩
    · by_cases h4 : 4 ≤ (pySplit '"' h).length
      · by_cases hn0 : stripN n = ""
        · have hout : change_narration s n =
              joinNL (pyRstrip (pyJoin "\"" ((pySplit '"' h).take 3)) :: rest) := by
            simp only [change_narration, hsplit, hstar, Bool.not_true, Bool.false_eq_true,
              if_false, if_neg heven, if_pos h4, if_pos hn0]
          rw [hout]
          apply hfin
          · exact LF_pyRstrip (LF_pyJoinQ _
              (fun p hp => LF_parts hLFh p (List.mem_of_mem_take hp)))
          · intro _
            exact pyRstrip_join_ne_empty (by omega)
        · have hout : change_narration s n =
              joinNL (pyJoin "\"" ((pySplit '"' h).set 3 (stripN n)) :: rest) := by
            simp only [change_narration, hsplit, hstar, Bool.not_true, Bool.false_eq_true,
              if_false, if_neg heven, if_pos h4, if_neg hn0]
          rw [hout]
          apply hfin
          · apply LF_pyJoinQ
            intro p hp
            rcases List.mem_or_eq_of_mem_set hp with hp | rfl
            · exact LF_parts hLFh p hp
            · exact LF_stripN hn
          · intro _
            apply pyJoinQ_ne_empty
            rw [List.length_set]
            omega
      · by_cases h3 : 3 ≤ (pySplit '"' h).length
        · by_cases hn0 : stripN n ≠ ""
          · have hout : change_narration s n =
                joinNL ((pyJoin "\"" ((pySplit '"' h).take 3) ++ " \"" ++ stripN n ++
                  "\"") :: rest) := by
              simp only [change_narration, hsplit, hstar, Bool.not_true,
                Bool.false_eq_true, if_false, if_neg heven, if_neg h4, if_pos h3,
                if_pos hn0]
            rw [hout]
            apply hfin
            · refine LF_append (LF_append (LF_append ?_ ?_) (LF_stripN hn)) LF_quote
              · exact LF_pyJoinQ _ (fun p hp => LF_parts hLFh p (List.mem_of_mem_take hp))
              · intro c hc
                simp only [List.mem_cons, List.mem_singleton] at hc
                rcases hc with rfl | rfl | hc
                · rfl
                · rfl
                · exact absurd hc (List.not_mem_nil c)
            · intro _ he
              have hd := congrArg String.data he
              rw [String.data_append] at hd
              simp at hd
          · have hout : change_narration s n = joinNL (h :: rest) := by
              simp only [change_narration, hsplit, hstar, Bool.not_true,
                Bool.false_eq_true, if_false, if_neg heven, if_neg h4, if_pos h3,
                if_neg hn0]
            rw [hout]
            exact hfin h hLFh hfallback
        · have hout : change_narration s n = joinNL (h :: rest) := by
            simp only [change_narration, hsplit, hstar, Bool.not_true,
              Bool.false_eq_true, if_false, if_neg heven, if_neg h4, if_neg h3]
          rw [hout]
          exact hfin h hLFh hfallback
  · have hstar' : h.data.contains '*' = false := by
      cases hb : h.data.contains '*' with
      | false => rfl
      | true => exact absurd hb hstar
    have hout : change_narration s n = s := by
      simp only [change_narration, hsplit, hstar', Bool.not_false, if_true]
    rw [hout]
    exact ⟨rfl, rfl⟩

theorem C9_frame_witness :
    (splitlines (change_narration "2024-01-01 * \"P\" \"O\"\nx" "New")).length =
      (splitlines "2024-01-01 * \"P\" \"O\"\nx").length ∧
    (splitlines (change_narration "2024-01-01 * \"P\" \"O\"\nx" "New")).drop 1 =
      (splitlines "2024-01-01 * \"P\" \"O\"\nx").drop 1 :=
  C9_frame "2024-01-01 * \"P\" \"O\"\nx" "New" (by decide)
    (by intro c hc; simp only [List.mem_cons, List.mem_singleton] at hc;
        rcases hc with rfl | rfl | rfl | hc
        · rfl
        · rfl
        · rfl
        · exact absurd hc (List.not_mem_nil c))
    (by decide)
